import Mathlib

/-!
Verification of the AMI hierarchy visualization tool.

This development gives a shallow embedding, in Lean 4, of the core logic of
the AMIhierarchy3 repository: the hierarchy filter engine, the use-case
matcher, the pending-change tracker (save / add / delete), the bounded
history log, the Excel export row generation, the dependency-spreadsheet
row parser (both the JS and the TS variant), and the ELK layout adapter
(both the JS and the TS variant).  JavaScript `Map` and `Set` values are
modelled as association lists and duplicate-free lists; JavaScript string
truthiness is modelled by comparison with the empty string.  All
definitions are executable and proofs are checked against them.
-/

namespace AMI

/-- Run a position test at every suffix of the input: models an unanchored
JS regex `test`. -/
def anyPosition (f : List Char → Bool) : List Char → Bool
  | [] => f []
  | c :: cs => f (c :: cs) || anyPosition f cs

/-- JS `hay.includes(pat)`: substring containment test. -/
def substrContains (hay pat : String) : Bool :=
  anyPosition (fun cs => pat.toList.isPrefixOf cs) hay.toList

/-- ASCII lowercasing of one character.  JS `toLowerCase` agrees with this on
every string this program handles (ASCII letters; other characters, such as
the en dash, are left unchanged by both). -/
def lowerChar (c : Char) : Char :=
  if decide ('A' ≤ c) && decide (c ≤ 'Z') then Char.ofNat (c.toNat + 32) else c

/-- JS `s.toLowerCase()` on the character list of `s`. -/
def lowerStr (s : String) : List Char :=
  s.toList.map lowerChar

/-- Substring containment on character lists. -/
def listContains (hay pat : List Char) : Bool :=
  anyPosition (fun cs => pat.isPrefixOf cs) hay

/-- A decimal digit, as tested by the JS regex class `\d`. -/
def isDigitChar (c : Char) : Bool :=
  decide ('0' ≤ c) && decide (c ≤ '9')

/-- A whitespace character, as tested by the JS regex class `\s`
(ASCII part, which is all the inputs of this program use). -/
def isSpaceChar (c : Char) : Bool :=
  decide (c = ' ') || decide (c = '\t') || decide (c = '\n') || decide (c = '\r') ||
  decide (c = '\x0b') || decide (c = '\x0c')

/-- Strip a literal pattern from the front of a character list, returning the
remainder on success. -/
def stripLeading : List Char → List Char → Option (List Char)
  | [], cs => some cs
  | _ :: _, [] => none
  | p :: ps, c :: cs => if c = p then stripLeading ps cs else none

/-- Test, at one position, the JS regex `<pat>(?!\d)`: the literal pattern
followed by end of input or a non-digit. -/
def litThenNonDigit (pat : List Char) (cs : List Char) : Bool :=
  match stripLeading pat cs with
  | some [] => true
  | some (d :: _) => !(isDigitChar d)
  | none => false

/-- Test, at one position, the JS regex `uc\s*<ds>(?!\d)`. -/
def ucThenNonDigit (ds : List Char) (cs : List Char) : Bool :=
  match stripLeading ['u', 'c'] cs with
  | none => false
  | some rest =>
    match stripLeading ds (rest.dropWhile isSpaceChar) with
    | some [] => true
    | some (d :: _) => !(isDigitChar d)
    | none => false

/-- At one position, match the JS regex `use case (\d+)` and return the
captured digit group (maximal digit run). -/
def useCaseDigitsAt (cs : List Char) : Option (List Char) :=
  match stripLeading "use case ".toList cs with
  | none => none
  | some rest =>
    match rest.takeWhile isDigitChar with
    | [] => none
    | ds => some ds

/-- First match of the JS regex `use case (\d+)` in the (already lowercased)
filter text: the captured digit group of the leftmost occurrence. -/
def findUseCaseNumber : List Char → Option (List Char)
  | [] => none
  | c :: cs =>
    match useCaseDigitsAt (c :: cs) with
    | some ds => some ds
    | none => findUseCaseNumber cs

/-- The use-case matcher `matchesUseCase(useCaseField, filterValue)` from
`filterHierarchyByUseCase` (src/app.js, src/unnamed/part_000).  The empty
string models an absent (`undefined`) field. -/
def matchesUseCase (useCaseField filterValue : String) : Bool :=
  if useCaseField = "" then false
  else
    let useCaseLower := lowerStr useCaseField
    let filterLower := lowerStr filterValue
    if listContains filterLower "foundational".toList then
      listContains useCaseLower "foundational".toList &&
        listContains useCaseLower "not directly mapped to sce use case".toList
    else
      match findUseCaseNumber filterLower with
      | some ds =>
        anyPosition (litThenNonDigit ("use case ".toList ++ ds)) useCaseLower ||
          anyPosition (ucThenNonDigit ds) useCaseLower
      | none => listContains useCaseLower filterLower

/-- A node of the process hierarchy, as the JSON objects the program
manipulates.  Absent string fields (`level` on the root, `objective` /
`use_case` / `it_release` on non-L3 nodes) are modelled by the empty string,
matching the `x || ''` accesses in the code; an absent `children` array is
modelled by the empty list, which the code treats identically (every access
is guarded by `node.children && node.children.length > 0` or a
`forEach`). -/
inductive PNode : Type where
  | mk : (name : String) → (level : String) → (objective : String) →
      (useCase : String) → (itRelease : String) → (children : List PNode) → PNode

/-- Field accessor: `node.name`. -/
def PNode.name : PNode → String
  | .mk n _ _ _ _ _ => n

/-- Field accessor: `node.level`. -/
def PNode.level : PNode → String
  | .mk _ l _ _ _ _ => l

/-- Field accessor: `node.objective`. -/
def PNode.objective : PNode → String
  | .mk _ _ o _ _ _ => o

/-- Field accessor: `node.use_case`. -/
def PNode.useCase : PNode → String
  | .mk _ _ _ u _ _ => u

/-- Field accessor: `node.it_release`. -/
def PNode.itRelease : PNode → String
  | .mk _ _ _ _ r _ => r

/-- Field accessor: `node.children`. -/
def PNode.children : PNode → List PNode
  | .mk _ _ _ _ _ cs => cs

mutual

/-- `filterNode` from `filterHierarchyByITRelease` (src/app.js): an L3 node
survives iff its `it_release` contains the filter value; an inner node
survives iff at least one child survives, and is then shallow-cloned with
the surviving children. -/
def filterITNode (v : String) : PNode → Option PNode
  | .mk n l o u r cs =>
    if l = "L3" then
      if substrContains r v then some (.mk n l o u r cs) else none
    else
      match filterITList v cs with
      | [] => none
      | fc => some (.mk n l o u r fc)

/-- `children.map(filterNode).filter(c => c !== null)` for the IT-release
filter. -/
def filterITList (v : String) : List PNode → List PNode
  | [] => []
  | c :: cs =>
    match filterITNode v c with
    | some fc => fc :: filterITList v cs
    | none => filterITList v cs

end

mutual

/-- `filterNode` from `filterHierarchyByUseCase` (src/app.js): like the
IT-release filter but with the specialized use-case matcher at L3 leaves. -/
def filterUCNode (v : String) : PNode → Option PNode
  | .mk n l o u r cs =>
    if l = "L3" then
      if matchesUseCase u v then some (.mk n l o u r cs) else none
    else
      match filterUCList v cs with
      | [] => none
      | fc => some (.mk n l o u r fc)

/-- `children.map(filterNode).filter(c => c !== null)` for the use-case
filter. -/
def filterUCList (v : String) : List PNode → List PNode
  | [] => []
  | c :: cs =>
    match filterUCNode v c with
    | some fc => fc :: filterUCList v cs
    | none => filterUCList v cs

end

/-- The `{name: data.name || "Process Hierarchy", children: []}` placeholder
root returned when a filter leaves no top-level children. -/
def placeholderOf (d : PNode) : PNode :=
  .mk (if d.name = "" then "Process Hierarchy" else d.name) "" "" "" "" []

/-- `filterHierarchyByITRelease(data, releaseValue)` (src/app.js lines
67-128).  A falsy or "All" filter value returns the input unchanged. -/
def filterHierarchyByITRelease (d : PNode) (v : String) : PNode :=
  if v = "" ∨ v = "All" then d
  else
    match filterITNode v d with
    | none => placeholderOf d
    | some f => if f.children.isEmpty then placeholderOf d else f

/-- `filterHierarchyByUseCase(data, useCaseValue)` (src/app.js lines
131-229). -/
def filterHierarchyByUseCase (d : PNode) (v : String) : PNode :=
  if v = "" ∨ v = "All" then d
  else
    match filterUCNode v d with
    | none => placeholderOf d
    | some f => if f.children.isEmpty then placeholderOf d else f

/-- `filterHierarchy(data, itReleaseValue, useCaseValue)` (src/app.js lines
232-246): IT-release filter first, then the use-case filter on the
result. -/
def filterHierarchy (d : PNode) (itV ucV : String) : PNode :=
  let d1 := if itV ≠ "" ∧ itV ≠ "All" then filterHierarchyByITRelease d itV else d
  if ucV ≠ "" ∧ ucV ≠ "All" then filterHierarchyByUseCase d1 ucV else d1

mutual

/-- A tree in the image of the IT-release filter: every L3 leaf matches the
filter value and every inner node has a nonempty child list of such trees. -/
def goodIT (v : String) : PNode → Bool
  | .mk _ l _ _ r cs =>
    if l = "L3" then substrContains r v
    else !cs.isEmpty && goodITList v cs

/-- `goodIT` for every member of a list. -/
def goodITList (v : String) : List PNode → Bool
  | [] => true
  | c :: cs => goodIT v c && goodITList v cs

end

mutual

/-- A tree in the image of the use-case filter: every L3 leaf matches the
use-case matcher and every inner node has a nonempty child list of such
trees. -/
def goodUC (v : String) : PNode → Bool
  | .mk _ l _ u _ cs =>
    if l = "L3" then matchesUseCase u v
    else !cs.isEmpty && goodUCList v cs

/-- `goodUC` for every member of a list. -/
def goodUCList (v : String) : List PNode → Bool
  | [] => true
  | c :: cs => goodUC v c && goodUCList v cs

end

/-- JS `Map.set(k, v)` on an association list with unique keys: replace the
value in place if the key exists, else append. -/
def mapSet (k : String) (v : α) : List (String × α) → List (String × α)
  | [] => [(k, v)]
  | (k1, v1) :: rest => if k1 = k then (k, v) :: rest else (k1, v1) :: mapSet k v rest

/-- JS `Map.delete(k)`. -/
def mapDelete (k : String) (m : List (String × α)) : List (String × α) :=
  m.filter (fun p => p.1 != k)

/-- JS `Map.has(k)`. -/
def mapHas (k : String) (m : List (String × α)) : Bool :=
  m.any (fun p => p.1 == k)

/-- JS `Set.add(k)` on a duplicate-free list (insertion order kept). -/
def setAdd (k : String) (s : List String) : List String :=
  if k ∈ s then s else s ++ [k]

/-- JS `Set.has(k)`. -/
def setHas (k : String) (s : List String) : Bool :=
  decide (k ∈ s)

/-- The global `window.pendingChanges` object: `modified` and `added` are
maps from process ids, `deleted` is a set of process ids. -/
structure Pending where
  modified : List (String × PNode)
  added : List (String × PNode)
  deleted : List String

/-- The empty pending change set, as initialized on load. -/
def emptyPending : Pending := ⟨[], [], []⟩

/-- `getProcessId(processData)`: the derived identity `"{level}_{name}"`. -/
def getProcessId (n : PNode) : String :=
  n.level ++ "_" ++ n.name

mutual

/-- `markChildrenDeleted(node)` from `deleteProcess` (src/unnamed/part_000
lines 762-774): add the node's id to `deleted`, evict it from `added` and
`modified`, then recurse over the children. -/
def markChildrenDeleted : PNode → Pending → Pending
  | .mk nm l _ _ _ cs, pc =>
    let nodeId := l ++ "_" ++ nm
    markChildrenDeletedList cs
      ⟨mapDelete nodeId pc.modified, mapDelete nodeId pc.added, setAdd nodeId pc.deleted⟩

/-- `node.children.forEach(child => markChildrenDeleted(child))`. -/
def markChildrenDeletedList : List PNode → Pending → Pending
  | [], pc => pc
  | c :: cs, pc => markChildrenDeletedList cs (markChildrenDeleted c pc)

end

mutual

/-- `countChildren(node)` from `deleteProcess`: the number of descendants of
a node (`children.length` plus the descendant counts of each child). -/
def countChildren : PNode → Nat
  | .mk _ _ _ _ _ cs => countChildrenList cs

/-- Sum over the children of `1 + countChildren child`. -/
def countChildrenList : List PNode → Nat
  | [] => 0
  | c :: cs => 1 + countChildren c + countChildrenList cs

end

mutual

/-- The process ids of a node and all of its descendants, in the depth-first
order `markChildrenDeleted` visits them. -/
def subtreeIds : PNode → List String
  | .mk nm l _ _ _ cs => (l ++ "_" ++ nm) :: subtreeIdsList cs

/-- `subtreeIds` of every member of a list, concatenated. -/
def subtreeIdsList : List PNode → List String
  | [] => []
  | c :: cs => subtreeIds c ++ subtreeIdsList cs

end

/-- The pending-change-set update of `saveProcess` (src/unnamed/part_000
lines 699-711): an added process stays in `added`, any other process is
recorded in `modified`; the `deleted` set is not consulted. -/
def savePending (pc : Pending) (processId : String) (data : PNode) : Pending :=
  if mapHas processId pc.added then
    { pc with added := mapSet processId data pc.added }
  else
    { pc with modified := mapSet processId data pc.modified }

/-- The pending-change-set update of `addProcess` (src/unnamed/part_000 lines
866-884): the new node is recorded in `added` under its id; the `modified`
map and `deleted` set are not consulted. -/
def addPending (pc : Pending) (node : PNode) : Pending :=
  { pc with added := mapSet (getProcessId node) node pc.added }

/-- One user edit against the pending change set: a `saveProcess` submit, a
successful `addProcess`, or a confirmed `deleteProcess` on a resolved
node. -/
inductive EditOp : Type where
  | save : String → PNode → EditOp
  | add : PNode → EditOp
  | del : PNode → EditOp

/-- Effect of one edit operation on the pending change set. -/
def applyOp (pc : Pending) : EditOp → Pending
  | .save processId data => savePending pc processId data
  | .add node => addPending pc node
  | .del node => markChildrenDeleted node pc

/-- The pending change set reached by a sequence of edits starting from the
empty change set. -/
def runOps (ops : List EditOp) : Pending :=
  ops.foldl applyOp emptyPending

/-- Decidable statement of the claimed invariant: every identity is in at
most one of `modified`, `added`, `deleted`. -/
def pendingDisjoint (pc : Pending) : Bool :=
  pc.modified.all (fun p => !(mapHas p.1 pc.added) && !(setHas p.1 pc.deleted)) &&
    pc.added.all (fun p => !(setHas p.1 pc.deleted))

/-- Safety precondition under which an edit preserves disjointness: a save
must not target an identity currently marked deleted, and an add must not
re-introduce an identity currently in `modified` or `deleted`.  Deletions
are always safe. -/
def opSafe (pc : Pending) : EditOp → Bool
  | .save processId _ => !(setHas processId pc.deleted)
  | .add node =>
    !(mapHas (getProcessId node) pc.modified) &&
      !(setHas (getProcessId node) pc.deleted)
  | .del _ => true

/-- One entry of `window.changeHistory`:
`{action, processId, data, timestamp}`. -/
structure HEntry where
  action : String
  processId : String
  data : PNode
  timestamp : Nat

/-- The history log together with the `window.historyIndex` cursor. -/
structure HistState where
  changeHistory : List HEntry
  historyIndex : Int

/-- `const MAX_HISTORY = 50`. -/
def MAX_HISTORY : Nat := 50

/-- JS `xs.slice(0, e)` (a negative end counts from the end of the
array). -/
def jsSliceTo (xs : List α) (e : Int) : List α :=
  xs.take (if e < 0 then ((xs.length : Int) + e).toNat else e.toNat)

/-- `addToHistory(action, processId, data)` (src/unnamed/part_000 lines
1151-1174): truncate the suffix after the cursor, push the new entry, then
either evict the oldest entry (when over capacity) or advance the cursor to
the tail. -/
def addToHistory (st : HistState) (e : HEntry) : HistState :=
  let truncated :=
    if st.historyIndex < (st.changeHistory.length : Int) - 1 then
      jsSliceTo st.changeHistory (st.historyIndex + 1)
    else st.changeHistory
  let pushed := truncated ++ [e]
  if pushed.length > MAX_HISTORY then
    ⟨pushed.tail, st.historyIndex⟩
  else
    ⟨pushed, (pushed.length : Int) - 1⟩

/-- A sequence of committed edits applied to an empty history log
(`changeHistory = []`, `historyIndex = -1`). -/
def runEdits (es : List HEntry) : HistState :=
  es.foldl addToHistory ⟨[], -1⟩

mutual

/-- `findProcessByName` search step: compare this node's name, then search
the children depth-first. -/
def findByNameNode (nm : String) : PNode → Option PNode
  | .mk n l o u r cs =>
    if n = nm then some (.mk n l o u r cs) else findByNameList nm cs

/-- Depth-first search over a child list for `findProcessByName`. -/
def findByNameList (nm : String) : List PNode → Option PNode
  | [] => none
  | c :: cs =>
    match findByNameNode nm c with
    | some res => some res
    | none => findByNameList nm cs

end

/-- `findProcessByName(name)` (src/unnamed/part_000 lines 892-913): search
every top-level subtree; the root container itself is never compared. -/
def findProcessByName (root : PNode) (nm : String) : Option PNode :=
  findByNameList nm root.children

mutual

/-- Append a new child to the first node (in depth-first order) whose name
matches, mirroring the in-place `parentNode.children.push(newProcess)` on
the node returned by `findProcessByName`.  The flag reports whether the
parent was found. -/
def insertUnderNode (nm : String) (newP : PNode) : PNode → PNode × Bool
  | .mk n l o u r cs =>
    if n = nm then (.mk n l o u r (cs ++ [newP]), true)
    else
      match insertUnderList nm newP cs with
      | (cs1, found) => (.mk n l o u r cs1, found)

/-- `insertUnderNode` over a child list, stopping at the first match. -/
def insertUnderList (nm : String) (newP : PNode) : List PNode → List PNode × Bool
  | [] => ([], false)
  | c :: cs =>
    match insertUnderNode nm newP c with
    | (c1, true) => (c1 :: cs, true)
    | (_, false) =>
      match insertUnderList nm newP cs with
      | (cs1, found) => (c :: cs1, found)

end

/-- Push `newP` into the children of the first depth-first node named `nm`
below the root. -/
def insertUnderRoot (root : PNode) (nm : String) (newP : PNode) : PNode :=
  match root with
  | .mk n l o u r cs => .mk n l o u r (insertUnderList nm newP cs).1

/-- The structured result value of `addProcess`: `{success, error}` on
failure, `{success, processId}` on success (the empty string models an
absent field). -/
structure AddResult where
  success : Bool
  error : String
  processId : String

/-- The mutable application state touched by an edit: the working tree, the
pending change set and the history log. -/
structure AppState where
  hierarchyData : PNode
  pendingChanges : Pending
  history : HistState

/-- The success path of `addProcess`: build the new node, push it into the
tree (top level for L1, under the named parent otherwise), record it in
`added`, and append an `add` history entry. -/
def addProcessCommit (st : AppState) (now : Nat)
    (name level parentName description useCase itRelease : String) :
    AddResult × AppState :=
  let newProcess : PNode :=
    if level = "L3" then .mk name level description useCase itRelease []
    else .mk name level "" "" "" []
  let tree :=
    if level = "L1" then
      match st.hierarchyData with
      | .mk rn rl ro ru rr rcs => PNode.mk rn rl ro ru rr (rcs ++ [newProcess])
    else insertUnderRoot st.hierarchyData parentName newProcess
  let pid := getProcessId newProcess
  let pc := addPending st.pendingChanges newProcess
  let hist := addToHistory st.history ⟨"add", pid, newProcess, now⟩
  (⟨true, "", pid⟩, ⟨tree, pc, hist⟩)

/-- `addProcess(name, level, parentName, description, useCase, itRelease)`
(src/unnamed/part_000 lines 803-889).  Validation failures return a
structured `{success: false, error}` value before any state is touched. -/
def addProcess (st : AppState) (now : Nat)
    (name level parentName description useCase itRelease : String) :
    AddResult × AppState :=
  if name = "" ∨ level = "" then
    (⟨false, "Process name and level are required.", ""⟩, st)
  else if parentName ≠ "" then
    match findProcessByName st.hierarchyData parentName with
    | none => (⟨false, "Parent process not found.", ""⟩, st)
    | some parentNode =>
      if level = "L1" ∧ parentNode.level ≠ "L1" then
        (⟨false, "L1 processes cannot have a parent.", ""⟩, st)
      else if level = "L2" ∧ parentNode.level ≠ "L1" then
        (⟨false, "L2 processes must have an L1 parent.", ""⟩, st)
      else if level = "L3" ∧ parentNode.level ≠ "L2" then
        (⟨false, "L3 processes must have an L2 parent.", ""⟩, st)
      else addProcessCommit st now name level parentName description useCase itRelease
  else if level ≠ "L1" then
    (⟨false, "Parent process is required.", ""⟩, st)
  else addProcessCommit st now name level parentName description useCase itRelease

/-- A parent level is wrong for the requested child level exactly when one
of the three `addProcess` level checks fires. -/
def wrongParentLevel (level parentLevel : String) : Bool :=
  (decide (level = "L1") && decide (parentLevel ≠ "L1")) ||
    (decide (level = "L2") && decide (parentLevel ≠ "L1")) ||
    (decide (level = "L3") && decide (parentLevel ≠ "L2"))

/-- One row of the export spreadsheet, with the six fixed columns. -/
structure ExportRow where
  l1Name : String
  l2Name : String
  l3Name : String
  objectiveCol : String
  useCaseCol : String
  itReleaseCol : String
deriving DecidableEq, Repr

mutual

/-- `flattenHierarchy(node, l1Name, l2Name)` from `exportToExcel`
(src/search.js lines 313-341): carry the enclosing L1/L2 names down, emit
one row per L3 node whose id is not in the deleted set, and ignore nodes of
any other level. -/
def flattenNode (deleted : List String) (l1 l2 : String) : PNode → List ExportRow
  | .mk n l o u r cs =>
    if l = "L1" then flattenList deleted n l2 cs
    else if l = "L2" then flattenList deleted l1 n cs
    else if l = "L3" then
      if setHas (l ++ "_" ++ n) deleted then [] else [⟨l1, l2, n, o, u, r⟩]
    else []

/-- `node.children.forEach(child => flattenHierarchy(child, l1Name,
l2Name))`. -/
def flattenList (deleted : List String) (l1 l2 : String) : List PNode → List ExportRow
  | [] => []
  | c :: cs => flattenNode deleted l1 l2 c ++ flattenList deleted l1 l2 cs

end

mutual

/-- Specification-side traversal: every L3 descendant paired with its
enclosing L1 and L2 names, with no deletion filtering. -/
def l3TriplesNode (l1 l2 : String) : PNode → List (String × String × PNode)
  | .mk n l o u r cs =>
    if l = "L1" then l3TriplesList n l2 cs
    else if l = "L2" then l3TriplesList l1 n cs
    else if l = "L3" then [(l1, l2, .mk n l o u r cs)]
    else []

/-- `l3TriplesNode` over a child list. -/
def l3TriplesList (l1 l2 : String) : List PNode → List (String × String × PNode)
  | [] => []
  | c :: cs => l3TriplesNode l1 l2 c ++ l3TriplesList l1 l2 cs

end

/-- Specification-side description of the export: take all L3 descendants
with their ancestor names, drop those whose identity is in the deleted set,
and map each survivor to its six-column row. -/
def exportRowsSpec (root : PNode) (deleted : List String) : List ExportRow :=
  ((l3TriplesList "" "" root.children).filter
      (fun t => !(setHas (getProcessId t.2.2) deleted))).map
    (fun t => ⟨t.1, t.2.1, t.2.2.name, t.2.2.objective, t.2.2.useCase, t.2.2.itRelease⟩)

/-- `exportToExcel()` (src/search.js lines 301-398): the emitted rows, and
the state afterwards (pending changes cleared, history log emptied,
`historyIndex = -1`; the working tree is untouched). -/
def exportToExcel (st : AppState) : List ExportRow × AppState :=
  (flattenList st.pendingChanges.deleted "" "" st.hierarchyData.children,
    { st with pendingChanges := emptyPending, history := ⟨[], -1⟩ })

/-- An L2 node with two L3 children that share a name (legal: names are only
unique within one parent in general, and here even that is violated without
the code objecting). -/
def dupTree : PNode :=
  .mk "P" "L2" "" "" "" [.mk "X" "L3" "" "" "" [], .mk "X" "L3" "" "" "" []]

/-- An L2 node with two distinctly named L3 children, for the witness. -/
def meterTree : PNode :=
  .mk "Meter Reading" "L2" "" "" "" [.mk "Collect Reads" "L3" "" "" "" [],
    .mk "Validate Reads" "L3" "" "" "" []]

/-- A single L3 process node, used in the C2 counterexample. -/
def soloL3 : PNode := .mk "X" "L3" "" "" "" []

/-- A sequence of `MAX_HISTORY + 5` distinct committed edits, for the
history-bound witness. -/
def sampleEdits : List HEntry :=
  (List.range (MAX_HISTORY + 5)).map
    (fun j => ⟨"modify", "L3_X", .mk "X" "L3" "" "" "" [], j⟩)

/-- A fresh application state, as right after loading: a root container with
no level, the empty change set, the empty history log. -/
def freshState : AppState :=
  ⟨.mk "Process Hierarchy" "" "" "" ""
      [.mk "Billing" "L1" "" "" ""
        [.mk "Meter Reading" "L2" "" "" ""
          [.mk "Collect Reads" "L3" "" "IT Release 1" "" []]]],
    emptyPending, ⟨[], -1⟩⟩

/-- A flow-graph node as built by the dependency parser and consumed by the
layout adapter.  `width`/`height` are the optional precomputed box sizes;
`objective`/`useCase`/`itRelease` are the optional L3 enrichment fields of
the JS parser (empty when absent). -/
structure FlowNode where
  id : String
  label : String
  group : String
  level : String
  width : Option Nat
  height : Option Nat
  objective : String
  useCase : String
  itRelease : String
deriving DecidableEq, Repr

/-- A flow-graph edge `{source, target, label, id, category}`. -/
structure FlowEdge where
  source : String
  target : String
  label : String
  id : String
  category : Option String
deriving DecidableEq, Repr

/-- A point of an orthogonal routing polyline. -/
structure RoutePoint where
  x : Int
  y : Int
deriving DecidableEq, Repr

/-- One routing section of an ELK output edge. -/
structure ElkSection where
  startPt : Option RoutePoint
  endPt : Option RoutePoint
  bendPoints : List RoutePoint
deriving DecidableEq, Repr

/-- An edge of the laid-out graph as returned by the external ELK library:
`sources`/`targets` carry the direction ELK chose (which may be the reverse
of the input direction after cycle breaking), and `orig` models the
`_original` passthrough property, which the library may or may not
preserve. -/
structure ElkEdgeOut where
  id : String
  sources : List String
  targets : List String
  sections : List ElkSection
  orig : Option FlowEdge
deriving DecidableEq, Repr

/-- A positioned edge: the edge fields the renderer draws arrowheads from,
plus the flattened routing bend points. -/
structure PositionedEdge where
  source : String
  target : String
  label : String
  id : String
  category : Option String
  routingPoints : List RoutePoint
deriving DecidableEq, Repr

/-- The original-edge resolution of the JS adapter
(src/lib/useFlowLayout.js lines 185-205): take the `_original` passthrough
when present, else search the input edges matching the ELK endpoints in
either direction (to handle a reversal). -/
def resolveOriginalEdge (flowEdges : List FlowEdge) (oe : ElkEdgeOut) :
    Option FlowEdge :=
  match oe.orig with
  | some e => some e
  | none =>
    flowEdges.find? (fun e =>
      (e.source == oe.sources.headD "" && e.target == oe.targets.headD "") ||
        (e.source == oe.targets.headD "" && e.target == oe.sources.headD ""))

/-- The flattened bend points `sections.flatMap(s => s.bendPoints)`. -/
def elkRoutingPoints (oe : ElkEdgeOut) : List RoutePoint :=
  (oe.sections.map ElkSection.bendPoints).flatten

/-- The positioned edge built by the JS adapter (src/lib/useFlowLayout.js
lines 185-245): the resolved original edge's `source`/`target` are always
used ("ALWAYS use original source from Excel"); only when no original edge
can be resolved does the ELK direction leak into the fallback edge. -/
def positionedEdgeJS (flowEdges : List FlowEdge) (oe : ElkEdgeOut) :
    PositionedEdge :=
  match resolveOriginalEdge flowEdges oe with
  | some e => ⟨e.source, e.target, e.label, e.id, e.category, elkRoutingPoints oe⟩
  | none =>
    ⟨oe.sources.headD "", oe.targets.headD "", "", oe.id, none,
      elkRoutingPoints oe⟩

/-- The positioned edge built by the TS adapter (src/unnamed/part_002 lines
250-273): the original edge supplies the label/id/category, but
`source`/`target` are copied from ELK's `sources[0]`/`targets[0]`. -/
def positionedEdgeTS (flowEdges : List FlowEdge) (oe : ElkEdgeOut) :
    PositionedEdge :=
  let base :=
    (match oe.orig with
      | some e => some e
      | none =>
        flowEdges.find? (fun e =>
          e.source == oe.sources.headD "" && e.target == oe.targets.headD "")).getD
      ⟨oe.sources.headD "", oe.targets.headD "", "", oe.id, none⟩
  ⟨oe.sources.headD "", oe.targets.headD "", base.label, base.id, base.category,
    elkRoutingPoints oe⟩

/-- `node.label || node.id`. -/
def labelOf (n : FlowNode) : String :=
  if n.label = "" then n.id else n.label

/-- `calculateNodeDimensions(node)` (src/lib/useFlowLayout.js lines
116-134): `width = max(minWidth, label.length * charWidth + padding)`,
`height = max(minHeight, lineHeight + padding)` with `minWidth = 120`,
`minHeight = 50`, `charWidth = 8`, `lineHeight = 20`, `padding = 20`. -/
def calculateNodeDimensions (n : FlowNode) : Nat × Nat :=
  (max 120 ((labelOf n).length * 8 + 20), max 50 (20 + 20))

/-- The node enriched with its computed dimensions, as `useFlowLayout` does
before calling `convertToELKGraph`. -/
def withCalculatedDims (n : FlowNode) : FlowNode :=
  { n with width := some (calculateNodeDimensions n).1,
           height := some (calculateNodeDimensions n).2 }

/-- The box size `convertToELKGraph` (src/lib/useFlowLayout.js lines 49-68)
hands to ELK: the JS variant hard-codes `width: 150, height: 60`. -/
def elkNodeDimsJS (_n : FlowNode) : Nat × Nat := (150, 60)

/-- The box size `convertToELKGraph` (src/unnamed/part_002 lines 128-153)
hands to ELK: the TS variant uses `node.width || 150` and
`node.height || 60` (`0` is falsy in JS). -/
def elkNodeDimsTS (n : FlowNode) : Nat × Nat :=
  ((match n.width with
    | some w => if w = 0 then 150 else w
    | none => 150),
   (match n.height with
    | some h => if h = 0 then 60 else h
    | none => 60))

/-- The box size the JS `useFlowLayout` pipeline supplies to the layout
algorithm for an input node. -/
def elkInputDimsJS (n : FlowNode) : Nat × Nat :=
  elkNodeDimsJS (withCalculatedDims n)

/-- The box size the TS `useFlowLayout` pipeline supplies to the layout
algorithm for an input node. -/
def elkInputDimsTS (n : FlowNode) : Nat × Nat :=
  elkNodeDimsTS (withCalculatedDims n)

/-- One data row of the dependency spreadsheet, reduced to the four mapped
cells (a missing column reads as the empty string, matching
`sheet_to_json` with `defval: ''`). -/
structure RawRow where
  source : String
  target : String
  objectCell : String
  categoryCell : String
deriving DecidableEq, Repr

/-- JS `s.trim()` (ASCII whitespace). -/
def trimChars (s : String) : String :=
  String.mk (((s.toList.dropWhile isSpaceChar).reverse.dropWhile isSpaceChar).reverse)

/-- Edge identity `"{source}->{target}[:{label}]"`. -/
def mkEdgeId (s t lbl : String) : String :=
  s ++ "->" ++ t ++ (if lbl ≠ "" then ":" ++ lbl else "")

/-- A fresh parser node `{id, label, group, level: 'L3'}`. -/
def baseFlowNode (nm cat : String) : FlowNode :=
  ⟨nm, nm, (if cat ≠ "" then cat else "default"), "L3", none, none, "", "", ""⟩

/-- `createOrUpdateNode(processName, category)` of the TS parser
(src/lib/parseDependencies.ts lines 116-133): insert a fresh node, or update
the stored node's group when a category arrives and the stored group is
still the default placeholder. -/
def createOrUpdateNodeTS (nm cat : String) (m : List (String × FlowNode)) :
    List (String × FlowNode) :=
  if nm = "" then m
  else if mapHas nm m then
    m.map (fun p =>
      if p.1 = nm ∧ cat ≠ "" ∧ (p.2.group = "" ∨ p.2.group = "default") then
        (p.1, { p.2 with group := cat })
      else p)
  else m ++ [(nm, baseFlowNode nm cat)]

/-- An L3-details record `{objective, use_case, it_release}` for parser
enrichment. -/
structure L3Details where
  objective : String
  useCase : String
  itRelease : String
deriving DecidableEq, Repr

/-- Merge an L3-details record into a node (`{...baseNode, objective, ...}`). -/
def applyDetails (base : FlowNode) (d : L3Details) : FlowNode :=
  { base with
    objective := d.objective
    useCase := d.useCase
    itRelease := d.itRelease }

/-- `enrichNode(processName, baseNode)` of the JS parser
(src/lib/parseDependencies.js lines 175-195): decorate a node from the
optional `l3DetailsMap`, by exact name first and lowercased name second. -/
def enrichNode (l3m : Option (List (String × L3Details))) (nm : String)
    (base : FlowNode) : FlowNode :=
  match l3m with
  | none => base
  | some m =>
    let nn := trimChars nm
    match (m.find? (fun p => p.1 == nn)).map Prod.snd with
    | some d => applyDetails base d
    | none =>
      match (m.find? (fun p => p.1 == String.mk (lowerStr nn))).map Prod.snd with
      | some d => applyDetails base d
      | none => base

/-- The create-or-update step of the JS parser
(src/lib/parseDependencies.js lines 197-239), including enrichment. -/
def createOrUpdateNodeJS (l3m : Option (List (String × L3Details)))
    (nm cat : String) (m : List (String × FlowNode)) :
    List (String × FlowNode) :=
  if mapHas nm m then
    m.map (fun p =>
      if p.1 = nm then
        (p.1, enrichNode l3m nm
          (if cat ≠ "" ∧ (p.2.group = "" ∨ p.2.group = "default") then
            { p.2 with group := cat }
          else p.2))
      else p)
  else m ++ [(nm, enrichNode l3m nm (baseFlowNode nm cat))]

/-- One row of the JS parser loop (src/lib/parseDependencies.js lines
163-249): a row with an empty (trimmed) source **or** target is skipped
entirely; otherwise both endpoint nodes are created or updated and one edge
is appended. -/
def parseRowJS (l3m : Option (List (String × L3Details)))
    (st : List (String × FlowNode) × List FlowEdge) (row : RawRow) :
    List (String × FlowNode) × List FlowEdge :=
  let s := trimChars row.source
  let t := trimChars row.target
  let lbl := trimChars row.objectCell
  let cat := trimChars row.categoryCell
  if s = "" ∨ t = "" then st
  else
    (createOrUpdateNodeJS l3m t cat (createOrUpdateNodeJS l3m s cat st.1),
      st.2 ++ [⟨s, t, lbl, mkEdgeId s t lbl, if cat ≠ "" then some cat else none⟩])

/-- One row of the TS parser loop (src/lib/parseDependencies.ts lines
135-172): a row with both sides empty is skipped silently; a row with
exactly one side present yields an isolated node and no edge; a full row
yields both nodes and an edge. -/
def parseRowTS (st : List (String × FlowNode) × List FlowEdge) (row : RawRow) :
    List (String × FlowNode) × List FlowEdge :=
  let s := trimChars row.source
  let t := trimChars row.target
  let lbl := trimChars row.objectCell
  let cat := trimChars row.categoryCell
  if s = "" ∧ t = "" then st
  else if s ≠ "" ∧ t = "" then (createOrUpdateNodeTS s cat st.1, st.2)
  else if s = "" ∧ t ≠ "" then (createOrUpdateNodeTS t cat st.1, st.2)
  else
    (createOrUpdateNodeTS t cat (createOrUpdateNodeTS s cat st.1),
      st.2 ++ [⟨s, t, lbl, mkEdgeId s t lbl, if cat ≠ "" then some cat else none⟩])

/-- The JS parser's row loop over all data rows. -/
def parseRowsJS (l3m : Option (List (String × L3Details))) (rows : List RawRow) :
    List (String × FlowNode) × List FlowEdge :=
  rows.foldl (parseRowJS l3m) ([], [])

/-- The TS parser's row loop over all data rows. -/
def parseRowsTS (rows : List RawRow) :
    List (String × FlowNode) × List FlowEdge :=
  rows.foldl parseRowTS ([], [])

/-- The input edge `A -> B` of the layout counterexample. -/
def edgeAB : FlowEdge := ⟨"A", "B", "", "A->B", none⟩

/-- An ELK output edge for `edgeAB` whose direction the library reversed
during cycle breaking, with the `_original` passthrough preserved. -/
def elkReversedAB : ElkEdgeOut := ⟨"A->B", ["B"], ["A"], [], some edgeAB⟩

/-- A flow node with a 20-character label, for the dimension
counterexample. -/
def wideNode : FlowNode :=
  ⟨"N1", "12345678901234567890", "default", "L3", none, none, "", "", ""⟩

/-- A spreadsheet row with only the source cell filled. -/
def soloSourceRow : RawRow := ⟨"A", "", "", ""⟩

end AMI

namespace AMI

/-- Unfolding equation for `goodIT` at a constructor. -/
theorem goodIT_mk (v n l o u r : String) (cs : List PNode) :
    goodIT v (.mk n l o u r cs) =
      if l = "L3" then substrContains r v else !cs.isEmpty && goodITList v cs := by
  simp [goodIT]

/-- Unfolding equation for `goodUC` at a constructor. -/
theorem goodUC_mk (v n l o u r : String) (cs : List PNode) :
    goodUC v (.mk n l o u r cs) =
      if l = "L3" then matchesUseCase u v else !cs.isEmpty && goodUCList v cs := by
  simp [goodUC]

mutual

/-- Every tree produced by the IT-release filter step satisfies `goodIT`. -/
theorem goodIT_of_filterITNode (v : String) :
    ∀ (d f : PNode), filterITNode v d = some f → goodIT v f = true
  | .mk n l o u r cs, f => by
    intro h
    simp only [filterITNode] at h
    by_cases hl : l = "L3"
    · rw [if_pos hl] at h
      by_cases hr : substrContains r v = true
      · rw [if_pos hr] at h
        injection h with h
        subst h
        simp [goodIT_mk, hl, hr]
      · rw [if_neg hr] at h
        exact absurd h (by simp)
    · rw [if_neg hl] at h
      cases hfc : filterITList v cs with
      | nil => rw [hfc] at h; exact absurd h (by simp)
      | cons c' cs' =>
        rw [hfc] at h
        injection h with h
        subst h
        rw [goodIT_mk, if_neg hl]
        have hall : goodITList v (c' :: cs') = true := by
          rw [← hfc]
          exact goodITList_of_filterITList v cs
        simp [hall]

/-- Every member of the filtered child list satisfies `goodIT`; equivalently
the whole filtered list satisfies `goodITList`. -/
theorem goodITList_of_filterITList (v : String) :
    ∀ (cs : List PNode), goodITList v (filterITList v cs) = true
  | [] => by simp [filterITList, goodITList]
  | c :: cs => by
    simp only [filterITList]
    cases hc : filterITNode v c with
    | none => exact goodITList_of_filterITList v cs
    | some fc =>
      simp only [goodITList, Bool.and_eq_true]
      exact ⟨goodIT_of_filterITNode v c fc hc, goodITList_of_filterITList v cs⟩

end

mutual

/-- A `goodIT` tree is a fixed point of the IT-release filter step. -/
theorem filterITNode_of_goodIT (v : String) :
    ∀ (d : PNode), goodIT v d = true → filterITNode v d = some d
  | .mk n l o u r cs => by
    intro h
    rw [goodIT_mk] at h
    simp only [filterITNode]
    by_cases hl : l = "L3"
    · rw [if_pos hl] at h
      simp [hl, h]
    · rw [if_neg hl] at h
      rw [if_neg hl]
      cases cs with
      | nil => exact absurd h (by simp)
      | cons c' cs' =>
        simp only [List.isEmpty_cons, Bool.not_false, Bool.true_and] at h
        rw [filterITList_of_goodITList v (c' :: cs') h]

/-- A list of `goodIT` trees is a fixed point of the filtered-children map. -/
theorem filterITList_of_goodITList (v : String) :
    ∀ (cs : List PNode), goodITList v cs = true → filterITList v cs = cs
  | [] => by intro _; rfl
  | c :: cs => by
    intro h
    simp only [goodITList, Bool.and_eq_true] at h
    simp only [filterITList, filterITNode_of_goodIT v c h.1,
      filterITList_of_goodITList v cs h.2]

end

mutual

/-- A `goodUC` tree is a fixed point of the use-case filter step. -/
theorem filterUCNode_of_goodUC (v : String) :
    ∀ (d : PNode), goodUC v d = true → filterUCNode v d = some d
  | .mk n l o u r cs => by
    intro h
    rw [goodUC_mk] at h
    simp only [filterUCNode]
    by_cases hl : l = "L3"
    · rw [if_pos hl] at h
      simp [hl, h]
    · rw [if_neg hl] at h
      rw [if_neg hl]
      cases cs with
      | nil => exact absurd h (by simp)
      | cons c' cs' =>
        simp only [List.isEmpty_cons, Bool.not_false, Bool.true_and] at h
        rw [filterUCList_of_goodUCList v (c' :: cs') h]

/-- A list of `goodUC` trees is a fixed point of the filtered-children map. -/
theorem filterUCList_of_goodUCList (v : String) :
    ∀ (cs : List PNode), goodUCList v cs = true → filterUCList v cs = cs
  | [] => by intro _; rfl
  | c :: cs => by
    intro h
    simp only [goodUCList, Bool.and_eq_true] at h
    simp only [filterUCList, filterUCNode_of_goodUC v c h.1,
      filterUCList_of_goodUCList v cs h.2]

end

mutual

/-- Every tree produced by the use-case filter step satisfies `goodUC`. -/
theorem goodUC_of_filterUCNode (v : String) :
    ∀ (d f : PNode), filterUCNode v d = some f → goodUC v f = true
  | .mk n l o u r cs, f => by
    intro h
    simp only [filterUCNode] at h
    by_cases hl : l = "L3"
    · rw [if_pos hl] at h
      by_cases hr : matchesUseCase u v = true
      · rw [if_pos hr] at h
        injection h with h
        subst h
        simp [goodUC_mk, hl, hr]
      · rw [if_neg hr] at h
        exact absurd h (by simp)
    · rw [if_neg hl] at h
      cases hfc : filterUCList v cs with
      | nil => rw [hfc] at h; exact absurd h (by simp)
      | cons c' cs' =>
        rw [hfc] at h
        injection h with h
        subst h
        rw [goodUC_mk, if_neg hl]
        have hall : goodUCList v (c' :: cs') = true := by
          rw [← hfc]
          exact goodUCList_of_filterUCList v cs
        simp [hall]

/-- The filtered child list of the use-case filter satisfies `goodUCList`. -/
theorem goodUCList_of_filterUCList (v : String) :
    ∀ (cs : List PNode), goodUCList v (filterUCList v cs) = true
  | [] => by simp [filterUCList, goodUCList]
  | c :: cs => by
    simp only [filterUCList]
    cases hc : filterUCNode v c with
    | none => exact goodUCList_of_filterUCList v cs
    | some fc =>
      simp only [goodUCList, Bool.and_eq_true]
      exact ⟨goodUC_of_filterUCNode v c fc hc, goodUCList_of_filterUCList v cs⟩

end

mutual

/-- The use-case filter step preserves `goodIT`. -/
theorem goodIT_of_filterUCNode (a b : String) :
    ∀ (d g : PNode), goodIT a d = true → filterUCNode b d = some g → goodIT a g = true
  | .mk n l o u r cs, g => by
    intro hg h
    simp only [filterUCNode] at h
    by_cases hl : l = "L3"
    · rw [if_pos hl] at h
      by_cases hr : matchesUseCase u b = true
      · rw [if_pos hr] at h
        injection h with h
        subst h
        exact hg
      · rw [if_neg hr] at h
        exact absurd h (by simp)
    · rw [if_neg hl] at h
      rw [goodIT_mk, if_neg hl] at hg
      cases cs with
      | nil => rw [show filterUCList b [] = [] from rfl] at h; exact absurd h (by simp)
      | cons c' cs' =>
        simp only [List.isEmpty_cons, Bool.not_false, Bool.true_and] at hg
        cases hfc : filterUCList b (c' :: cs') with
        | nil => rw [hfc] at h; exact absurd h (by simp)
        | cons e' es' =>
          rw [hfc] at h
          injection h with h
          subst h
          rw [goodIT_mk, if_neg hl]
          have : goodITList a (filterUCList b (c' :: cs')) = true :=
            goodITList_of_filterUCList a b (c' :: cs') hg
          rw [hfc] at this
          simp [this]

/-- The use-case filter of a `goodITList` child list is again `goodITList`. -/
theorem goodITList_of_filterUCList (a b : String) :
    ∀ (cs : List PNode), goodITList a cs = true → goodITList a (filterUCList b cs) = true
  | [] => by intro _; rfl
  | c :: cs => by
    intro h
    simp only [goodITList, Bool.and_eq_true] at h
    simp only [filterUCList]
    cases hc : filterUCNode b c with
    | none => exact goodITList_of_filterUCList a b cs h.2
    | some fc =>
      simp only [goodITList, Bool.and_eq_true]
      exact ⟨goodIT_of_filterUCNode a b c fc h.1 hc,
        goodITList_of_filterUCList a b cs h.2⟩

end

/-- The placeholder root never has an empty name. -/
theorem placeholderOf_name_ne (d : PNode) : (placeholderOf d).name ≠ "" := by
  cases d with
  | mk n l o u r cs =>
    simp only [placeholderOf, PNode.name]
    by_cases h : n = ""
    · rw [if_pos h]; decide
    · rw [if_neg h]; exact h

/-- The placeholder construction is idempotent. -/
theorem placeholderOf_placeholderOf (d : PNode) :
    placeholderOf (placeholderOf d) = placeholderOf d := by
  have h := placeholderOf_name_ne d
  cases d with
  | mk n l o u r cs =>
    simp only [placeholderOf, PNode.name] at h ⊢
    rw [if_neg h]

/-- The placeholder root (level absent, no children) is rejected by the
IT-release filter step. -/
theorem filterITNode_placeholderOf (v : String) (d : PNode) :
    filterITNode v (placeholderOf d) = none := by
  simp only [placeholderOf]
  rfl

/-- The placeholder root is rejected by the use-case filter step. -/
theorem filterUCNode_placeholderOf (v : String) (d : PNode) :
    filterUCNode v (placeholderOf d) = none := by
  simp only [placeholderOf]
  rfl

/-- Value of the full IT-release filter when the filter step rejects the
root. -/
theorem filterIT_eq_of_none (d : PNode) (v : String) (hv : ¬(v = "" ∨ v = "All"))
    (hf : filterITNode v d = none) :
    filterHierarchyByITRelease d v = placeholderOf d := by
  unfold filterHierarchyByITRelease
  rw [if_neg hv, hf]

/-- Value of the full IT-release filter when the filter step accepts the
root. -/
theorem filterIT_eq_of_some (d f : PNode) (v : String) (hv : ¬(v = "" ∨ v = "All"))
    (hf : filterITNode v d = some f) :
    filterHierarchyByITRelease d v =
      if f.children.isEmpty then placeholderOf d else f := by
  unfold filterHierarchyByITRelease
  rw [if_neg hv, hf]

/-- Value of the full use-case filter when the filter step rejects the
root. -/
theorem filterUC_eq_of_none (d : PNode) (v : String) (hv : ¬(v = "" ∨ v = "All"))
    (hf : filterUCNode v d = none) :
    filterHierarchyByUseCase d v = placeholderOf d := by
  unfold filterHierarchyByUseCase
  rw [if_neg hv, hf]

/-- Value of the full use-case filter when the filter step accepts the
root. -/
theorem filterUC_eq_of_some (d f : PNode) (v : String) (hv : ¬(v = "" ∨ v = "All"))
    (hf : filterUCNode v d = some f) :
    filterHierarchyByUseCase d v =
      if f.children.isEmpty then placeholderOf d else f := by
  unfold filterHierarchyByUseCase
  rw [if_neg hv, hf]

/-- The IT-release filter maps a placeholder root to itself. -/
theorem filterIT_placeholder (v : String) (d : PNode) :
    filterHierarchyByITRelease (placeholderOf d) v = placeholderOf d := by
  unfold filterHierarchyByITRelease
  by_cases hv : v = "" ∨ v = "All"
  · rw [if_pos hv]
  · rw [if_neg hv, filterITNode_placeholderOf, placeholderOf_placeholderOf]

/-- The use-case filter maps a placeholder root to itself. -/
theorem filterUC_placeholder (v : String) (d : PNode) :
    filterHierarchyByUseCase (placeholderOf d) v = placeholderOf d := by
  unfold filterHierarchyByUseCase
  by_cases hv : v = "" ∨ v = "All"
  · rw [if_pos hv]
  · rw [if_neg hv, filterUCNode_placeholderOf, placeholderOf_placeholderOf]

/-- A `goodIT` tree with children is a fixed point of the full IT-release
filter. -/
theorem filterIT_of_good (v : String) (X : PNode) (hg : goodIT v X = true)
    (hc : X.children.isEmpty = false) :
    filterHierarchyByITRelease X v = X := by
  unfold filterHierarchyByITRelease
  by_cases hv : v = "" ∨ v = "All"
  · rw [if_pos hv]
  · rw [if_neg hv, filterITNode_of_goodIT v X hg]
    simp [hc]

/-- A `goodUC` tree with children is a fixed point of the full use-case
filter. -/
theorem filterUC_of_good (v : String) (X : PNode) (hg : goodUC v X = true)
    (hc : X.children.isEmpty = false) :
    filterHierarchyByUseCase X v = X := by
  unfold filterHierarchyByUseCase
  by_cases hv : v = "" ∨ v = "All"
  · rw [if_pos hv]
  · rw [if_neg hv, filterUCNode_of_goodUC v X hg]
    simp [hc]

/-- The result of the full IT-release filter, when the filter value is
active, is either the placeholder root or a `goodIT` tree with children. -/
theorem filterIT_result (d : PNode) (v : String) (hv : ¬(v = "" ∨ v = "All")) :
    filterHierarchyByITRelease d v = placeholderOf d ∨
      (goodIT v (filterHierarchyByITRelease d v) = true ∧
        (filterHierarchyByITRelease d v).children.isEmpty = false) := by
  cases hf : filterITNode v d with
  | none => exact Or.inl (filterIT_eq_of_none d v hv hf)
  | some f =>
    rw [filterIT_eq_of_some d f v hv hf]
    by_cases hc : f.children.isEmpty
    · rw [if_pos hc]; exact Or.inl rfl
    · rw [if_neg hc]
      exact Or.inr ⟨goodIT_of_filterITNode v d f hf, Bool.eq_false_iff.mpr hc⟩

/-- The result of the full use-case filter, when the filter value is active,
is either the placeholder root or a `goodUC` tree with children; moreover
`goodIT` of the input is preserved. -/
theorem filterUC_result_preserves (d : PNode) (a b : String)
    (hb : ¬(b = "" ∨ b = "All")) (hg : goodIT a d = true) :
    filterHierarchyByUseCase d b = placeholderOf d ∨
      (goodIT a (filterHierarchyByUseCase d b) = true ∧
        goodUC b (filterHierarchyByUseCase d b) = true ∧
        (filterHierarchyByUseCase d b).children.isEmpty = false) := by
  cases hf : filterUCNode b d with
  | none => exact Or.inl (filterUC_eq_of_none d b hb hf)
  | some g =>
    rw [filterUC_eq_of_some d g b hb hf]
    by_cases hc : g.children.isEmpty
    · rw [if_pos hc]; exact Or.inl rfl
    · rw [if_neg hc]
      exact Or.inr ⟨goodIT_of_filterUCNode a b d g hg hf,
        goodUC_of_filterUCNode b d g hf, Bool.eq_false_iff.mpr hc⟩

/-- The full IT-release filter is idempotent. -/
theorem filterIT_idem (d : PNode) (v : String) :
    filterHierarchyByITRelease (filterHierarchyByITRelease d v) v =
      filterHierarchyByITRelease d v := by
  by_cases hv : v = "" ∨ v = "All"
  · unfold filterHierarchyByITRelease
    rw [if_pos hv, if_pos hv]
  · rcases filterIT_result d v hv with h | ⟨hg, hc⟩
    · rw [h, filterIT_placeholder]
    · exact filterIT_of_good v _ hg hc

/-- The full use-case filter is idempotent. -/
theorem filterUC_idem (d : PNode) (v : String) :
    filterHierarchyByUseCase (filterHierarchyByUseCase d v) v =
      filterHierarchyByUseCase d v := by
  by_cases hv : v = "" ∨ v = "All"
  · unfold filterHierarchyByUseCase
    rw [if_pos hv, if_pos hv]
  · have : filterHierarchyByUseCase d v = placeholderOf d ∨
        (goodUC v (filterHierarchyByUseCase d v) = true ∧
          (filterHierarchyByUseCase d v).children.isEmpty = false) := by
      cases hf : filterUCNode v d with
      | none => exact Or.inl (filterUC_eq_of_none d v hv hf)
      | some g =>
        rw [filterUC_eq_of_some d g v hv hf]
        by_cases hc : g.children.isEmpty
        · rw [if_pos hc]; exact Or.inl rfl
        · rw [if_neg hc]
          exact Or.inr ⟨goodUC_of_filterUCNode v d g hf, Bool.eq_false_iff.mpr hc⟩
    rcases this with h | ⟨hg, hc⟩
    · rw [h, filterUC_placeholder]
    · exact filterUC_of_good v _ hg hc

/-- C7: re-filtering an already-filtered tree with the same IT-release and
use-case filter values is a no-op (structural equality):
`filterHierarchy(filterHierarchy(T, a, b), a, b) = filterHierarchy(T, a, b)`. -/
theorem filterHierarchy_idempotent (d : PNode) (a b : String) :
    filterHierarchy (filterHierarchy d a b) a b = filterHierarchy d a b := by
  by_cases ha : a ≠ "" ∧ a ≠ "All"
  · by_cases hb : b ≠ "" ∧ b ≠ "All"
    · simp only [filterHierarchy, if_pos ha, if_pos hb]
      have hnva : ¬(a = "" ∨ a = "All") := by
        intro h; rcases h with h | h
        · exact ha.1 h
        · exact ha.2 h
      have hnvb : ¬(b = "" ∨ b = "All") := by
        intro h; rcases h with h | h
        · exact hb.1 h
        · exact hb.2 h
      have hstep2 : filterHierarchyByUseCase
          (filterHierarchyByUseCase (filterHierarchyByITRelease d a) b) b =
          filterHierarchyByUseCase (filterHierarchyByITRelease d a) b :=
        filterUC_idem (filterHierarchyByITRelease d a) b
      have hstep1 : filterHierarchyByITRelease
          (filterHierarchyByUseCase (filterHierarchyByITRelease d a) b) a =
          filterHierarchyByUseCase (filterHierarchyByITRelease d a) b := by
        rcases filterIT_result d a hnva with hY | ⟨hYg, _⟩
        · rw [hY, filterUC_placeholder, filterIT_placeholder]
        · rcases filterUC_result_preserves (filterHierarchyByITRelease d a) a b
            hnvb hYg with hR | ⟨hRg, _, hRc⟩
          · rw [hR, filterIT_placeholder]
          · exact filterIT_of_good a _ hRg hRc
      rw [hstep1, hstep2]
    · simp only [filterHierarchy, if_pos ha, if_neg hb]
      exact filterIT_idem d a
  · by_cases hb : b ≠ "" ∧ b ≠ "All"
    · simp only [filterHierarchy, if_neg ha, if_pos hb]
      exact filterUC_idem d b
    · simp only [filterHierarchy, if_neg ha, if_neg hb]

/-- C5: the use-case matcher with filter value "Use Case 1" accepts the
candidate field "Use Case 1 – Meter-to-Cash" and rejects the candidate
field "Use Case 13 – Post Event Analysis". -/
theorem useCase1_anchor_boundary :
    matchesUseCase "Use Case 1 – Meter-to-Cash" "Use Case 1" = true ∧
    matchesUseCase "Use Case 13 – Post Event Analysis" "Use Case 1" = false := by
  constructor <;> decide

end AMI

namespace AMI

/-- Membership characterization of `mapHas`. -/
theorem mapHas_iff (k : String) (m : List (String × α)) :
    mapHas k m = true ↔ ∃ p ∈ m, p.1 = k := by
  simp [mapHas, List.any_eq_true, beq_iff_eq]

/-- A map entry is seen by `mapHas`. -/
theorem mapHas_of_mem {m : List (String × α)} {p : String × α} (h : p ∈ m) :
    mapHas p.1 m = true :=
  (mapHas_iff p.1 m).mpr ⟨p, h, rfl⟩

/-- `mapDelete` removes its key. -/
theorem mapHas_mapDelete_self (k : String) (m : List (String × α)) :
    mapHas k (mapDelete k m) = false := by
  rw [Bool.eq_false_iff]
  intro h
  rw [mapHas_iff] at h
  obtain ⟨p, hp, hpk⟩ := h
  simp only [mapDelete, List.mem_filter, bne_iff_ne] at hp
  exact hp.2 hpk

/-- `mapDelete` only removes entries. -/
theorem mapHas_mapDelete_mono {j k : String} {m : List (String × α)}
    (h : mapHas j (mapDelete k m) = true) : mapHas j m = true := by
  rw [mapHas_iff] at h ⊢
  obtain ⟨p, hp, hpk⟩ := h
  simp only [mapDelete, List.mem_filter] at hp
  exact ⟨p, hp.1, hpk⟩

/-- Key set of `mapSet`. -/
theorem mapHas_mapSet (j k : String) (v : α) (m : List (String × α)) :
    mapHas j (mapSet k v m) = true ↔ j = k ∨ mapHas j m = true := by
  induction m with
  | nil =>
    simp only [mapSet, mapHas, List.any_cons, List.any_nil, Bool.or_false,
      beq_iff_eq]
    constructor
    · intro h
      exact Or.inl h.symm
    · rintro (rfl | h)
      · rfl
      · exact absurd h (by simp)
  | cons hd tl ih =>
    obtain ⟨k1, v1⟩ := hd
    by_cases h : k1 = k
    · subst h
      have hset : mapSet k1 v ((k1, v1) :: tl) = (k1, v) :: tl := by
        simp [mapSet]
      rw [hset]
      simp only [mapHas, List.any_cons, Bool.or_eq_true, beq_iff_eq]
      constructor
      · rintro (h | h)
        · exact Or.inl h.symm
        · exact Or.inr (Or.inr h)
      · rintro (h | h | h)
        · exact Or.inl h.symm
        · exact Or.inl h
        · exact Or.inr h
    · simp only [mapSet, if_neg h]
      simp only [mapHas, List.any_cons, Bool.or_eq_true, beq_iff_eq] at ih ⊢
      tauto

/-- Membership in `setAdd`. -/
theorem mem_setAdd (j k : String) (s : List String) :
    j ∈ setAdd k s ↔ j = k ∨ j ∈ s := by
  unfold setAdd
  by_cases h : k ∈ s
  · rw [if_pos h]
    constructor
    · exact Or.inr
    · rintro (rfl | hj)
      · exact h
      · exact hj
  · rw [if_neg h]
    simp [List.mem_append, or_comm]

/-- Length of `setAdd` on a fresh key. -/
theorem setAdd_length (k : String) (s : List String) (h : k ∉ s) :
    (setAdd k s).length = s.length + 1 := by
  simp [setAdd, h]

/-- `setHas` is membership. -/
theorem setHas_iff (k : String) (s : List String) : setHas k s = true ↔ k ∈ s := by
  simp [setHas]

mutual

/-- `markChildrenDeleted` never adds entries to the `added` or `modified`
maps. -/
theorem mark_mono : ∀ (n : PNode) (pc : Pending) (j : String),
    (mapHas j (markChildrenDeleted n pc).added = true → mapHas j pc.added = true) ∧
    (mapHas j (markChildrenDeleted n pc).modified = true → mapHas j pc.modified = true)
  | .mk nm l o u r cs, pc, j => by
    simp only [markChildrenDeleted]
    constructor
    · intro h
      exact mapHas_mapDelete_mono ((markList_mono cs _ j).1 h)
    · intro h
      exact mapHas_mapDelete_mono ((markList_mono cs _ j).2 h)

/-- List version of `mark_mono`. -/
theorem markList_mono : ∀ (cs : List PNode) (pc : Pending) (j : String),
    (mapHas j (markChildrenDeletedList cs pc).added = true → mapHas j pc.added = true) ∧
    (mapHas j (markChildrenDeletedList cs pc).modified = true →
      mapHas j pc.modified = true)
  | [], pc, j => by simp [markChildrenDeletedList]
  | c :: cs, pc, j => by
    simp only [markChildrenDeletedList]
    constructor
    · intro h
      exact (mark_mono c pc j).1 ((markList_mono cs _ j).1 h)
    · intro h
      exact (mark_mono c pc j).2 ((markList_mono cs _ j).2 h)

end

mutual

/-- The deleted set after `markChildrenDeleted` is the old deleted set plus
the ids of the node and its descendants. -/
theorem mark_deleted_mem : ∀ (n : PNode) (pc : Pending) (j : String),
    j ∈ (markChildrenDeleted n pc).deleted ↔ j ∈ pc.deleted ∨ j ∈ subtreeIds n
  | .mk nm l o u r cs, pc, j => by
    simp only [markChildrenDeleted, subtreeIds]
    rw [markList_deleted_mem cs _ j]
    simp only [mem_setAdd, List.mem_cons]
    tauto

/-- List version of `mark_deleted_mem`. -/
theorem markList_deleted_mem : ∀ (cs : List PNode) (pc : Pending) (j : String),
    j ∈ (markChildrenDeletedList cs pc).deleted ↔
      j ∈ pc.deleted ∨ j ∈ subtreeIdsList cs
  | [], pc, j => by simp [markChildrenDeletedList, subtreeIdsList]
  | c :: cs, pc, j => by
    simp only [markChildrenDeletedList, subtreeIdsList, List.mem_append]
    rw [markList_deleted_mem cs _ j, mark_deleted_mem c pc j]
    tauto

end

mutual

/-- After `markChildrenDeleted`, no id of the deleted subtree remains in
`added` or `modified`. -/
theorem mark_cleared : ∀ (n : PNode) (pc : Pending) (j : String),
    j ∈ subtreeIds n →
    mapHas j (markChildrenDeleted n pc).added = false ∧
    mapHas j (markChildrenDeleted n pc).modified = false
  | .mk nm l o u r cs, pc, j => by
    intro hj
    simp only [subtreeIds, List.mem_cons] at hj
    simp only [markChildrenDeleted]
    rcases hj with hj | hj
    · subst hj
      constructor
      · rw [Bool.eq_false_iff]
        intro h
        have h2 := (markList_mono cs _ _).1 h
        rw [mapHas_mapDelete_self] at h2
        exact absurd h2 (by simp)
      · rw [Bool.eq_false_iff]
        intro h
        have h2 := (markList_mono cs _ _).2 h
        rw [mapHas_mapDelete_self] at h2
        exact absurd h2 (by simp)
    · exact markList_cleared cs _ j hj

/-- List version of `mark_cleared`. -/
theorem markList_cleared : ∀ (cs : List PNode) (pc : Pending) (j : String),
    j ∈ subtreeIdsList cs →
    mapHas j (markChildrenDeletedList cs pc).added = false ∧
    mapHas j (markChildrenDeletedList cs pc).modified = false
  | [], pc, j => by
    intro hj
    simp [subtreeIdsList] at hj
  | c :: cs, pc, j => by
    intro hj
    simp only [subtreeIdsList, List.mem_append] at hj
    simp only [markChildrenDeletedList]
    rcases hj with hj | hj
    · have h1 := mark_cleared c pc j hj
      constructor
      · rw [Bool.eq_false_iff]
        intro h
        have h2 := (markList_mono cs _ j).1 h
        rw [h1.1] at h2
        exact absurd h2 (by simp)
      · rw [Bool.eq_false_iff]
        intro h
        have h2 := (markList_mono cs _ j).2 h
        rw [h1.2] at h2
        exact absurd h2 (by simp)
    · exact markList_cleared cs _ j hj

end

mutual

/-- `subtreeIds` counts the node plus its descendants. -/
theorem subtreeIds_length : ∀ (n : PNode),
    (subtreeIds n).length = countChildren n + 1
  | .mk nm l o u r cs => by
    simp [subtreeIds, countChildren, subtreeIdsList_length cs]

/-- List version of `subtreeIds_length`. -/
theorem subtreeIdsList_length : ∀ (cs : List PNode),
    (subtreeIdsList cs).length = countChildrenList cs
  | [] => by simp [subtreeIdsList, countChildrenList]
  | c :: cs => by
    simp [subtreeIdsList, countChildrenList, subtreeIds_length c,
      subtreeIdsList_length cs]
    omega

end

mutual

/-- Size of the deleted set after `markChildrenDeleted` when the subtree ids
are distinct and fresh. -/
theorem mark_deleted_length : ∀ (n : PNode) (pc : Pending),
    (subtreeIds n).Nodup → (∀ j ∈ subtreeIds n, j ∉ pc.deleted) →
    (markChildrenDeleted n pc).deleted.length =
      pc.deleted.length + (subtreeIds n).length
  | .mk nm l o u r cs, pc => by
    intro hnd hdisj
    simp only [subtreeIds] at hnd hdisj ⊢
    rw [List.nodup_cons] at hnd
    simp only [markChildrenDeleted]
    have hid : (l ++ "_" ++ nm) ∉ pc.deleted := hdisj _ (List.mem_cons_self _ _)
    have hd2 : ∀ j ∈ subtreeIdsList cs,
        j ∉ (setAdd (l ++ "_" ++ nm) pc.deleted) := by
      intro j hj
      rw [mem_setAdd]
      push_neg
      refine ⟨fun he => hnd.1 (he ▸ hj), hdisj j (List.mem_cons_of_mem _ hj)⟩
    rw [markList_deleted_length cs _ hnd.2 hd2]
    simp only [setAdd_length _ _ hid, List.length_cons]
    omega

/-- List version of `mark_deleted_length`. -/
theorem markList_deleted_length : ∀ (cs : List PNode) (pc : Pending),
    (subtreeIdsList cs).Nodup → (∀ j ∈ subtreeIdsList cs, j ∉ pc.deleted) →
    (markChildrenDeletedList cs pc).deleted.length =
      pc.deleted.length + (subtreeIdsList cs).length
  | [], pc => by
    intro _ _
    simp [markChildrenDeletedList, subtreeIdsList]
  | c :: cs, pc => by
    intro hnd hdisj
    simp only [subtreeIdsList] at hnd hdisj ⊢
    rw [List.nodup_append] at hnd
    obtain ⟨hnd1, hnd2, hdj⟩ := hnd
    simp only [markChildrenDeletedList]
    have hd1 : ∀ j ∈ subtreeIds c, j ∉ pc.deleted :=
      fun j hj => hdisj j (List.mem_append_left _ hj)
    have hd2 : ∀ j ∈ subtreeIdsList cs, j ∉ (markChildrenDeleted c pc).deleted := by
      intro j hj
      rw [mark_deleted_mem]
      push_neg
      exact ⟨hdisj j (List.mem_append_right _ hj), fun hc => hdj hc hj⟩
    rw [markList_deleted_length cs _ hnd2 hd2, mark_deleted_length c pc hnd1 hd1,
      List.length_append]
    omega

end

end AMI

namespace AMI

/-- C1 (amended): starting from a change set with an empty deleted set, after
`deleteProcess` marks a node with `k` descendants, the deleted set holds
exactly the identities of the node and its descendants — `k+1` of them when
those identities are pairwise distinct — and none of those identities
remain in `added` or `modified`. -/
theorem deletion_cascade (n : PNode) (pc : Pending)
    (hdel : pc.deleted = []) (hnd : (subtreeIds n).Nodup) :
    (markChildrenDeleted n pc).deleted.length = countChildren n + 1 ∧
    (∀ j, j ∈ (markChildrenDeleted n pc).deleted ↔ j ∈ subtreeIds n) ∧
    (∀ j ∈ subtreeIds n,
      mapHas j (markChildrenDeleted n pc).added = false ∧
      mapHas j (markChildrenDeleted n pc).modified = false) := by
  refine ⟨?_, ?_, ?_⟩
  · have hd : ∀ j ∈ subtreeIds n, j ∉ pc.deleted := by simp [hdel]
    rw [mark_deleted_length n pc hnd hd, hdel, subtreeIds_length]
    simp
  · intro j
    rw [mark_deleted_mem, hdel]
    simp
  · intro j hj
    exact mark_cleared n pc j hj

/-- C1 counterexample: `dupTree` has `k = 2` descendants, but after
`deleteProcess` the deleted set holds only 2 identities, not `k+1 = 3`,
because the two children share the identity `"L3_X"`. -/
theorem deletion_cascade_counterexample :
    countChildren dupTree = 2 ∧
    (markChildrenDeleted dupTree emptyPending).deleted = ["L2_P", "L3_X"] ∧
    ¬((markChildrenDeleted dupTree emptyPending).deleted.length =
        countChildren dupTree + 1) := by
  decide

/-- Witness for `deletion_cascade` at a concrete tree and the empty change
set. -/
theorem deletion_cascade_witness :
    (emptyPending.deleted = [] ∧ (subtreeIds meterTree).Nodup) ∧
    ((markChildrenDeleted meterTree emptyPending).deleted.length =
        countChildren meterTree + 1 ∧
      (∀ j, j ∈ (markChildrenDeleted meterTree emptyPending).deleted ↔
        j ∈ subtreeIds meterTree) ∧
      (∀ j ∈ subtreeIds meterTree,
        mapHas j (markChildrenDeleted meterTree emptyPending).added = false ∧
        mapHas j (markChildrenDeleted meterTree emptyPending).modified = false)) :=
  ⟨⟨rfl, by decide⟩, deletion_cascade meterTree emptyPending rfl (by decide)⟩

/-- Characterization of `pendingDisjoint` by identities. -/
theorem pendingDisjoint_prop (pc : Pending) :
    pendingDisjoint pc = true ↔
      ∀ j : String,
        (mapHas j pc.modified = true →
          mapHas j pc.added = false ∧ setHas j pc.deleted = false) ∧
        (mapHas j pc.added = true → setHas j pc.deleted = false) := by
  constructor
  · intro h j
    simp only [pendingDisjoint, Bool.and_eq_true, List.all_eq_true] at h
    constructor
    · intro hm
      rw [mapHas_iff] at hm
      obtain ⟨p, hp, hpk⟩ := hm
      have h2 := h.1 p hp
      simp only [Bool.and_eq_true, Bool.not_eq_true'] at h2
      rw [← hpk]
      exact h2
    · intro ha
      rw [mapHas_iff] at ha
      obtain ⟨p, hp, hpk⟩ := ha
      have h2 := h.2 p hp
      simp only [Bool.not_eq_true'] at h2
      rw [← hpk]
      exact h2
  · intro h
    simp only [pendingDisjoint, Bool.and_eq_true, List.all_eq_true]
    constructor
    · intro p hp
      have h2 := (h p.1).1 (mapHas_of_mem hp)
      simp only [Bool.and_eq_true, Bool.not_eq_true']
      exact h2
    · intro p hp
      have h2 := (h p.1).2 (mapHas_of_mem hp)
      simp only [Bool.not_eq_true']
      exact h2

/-- C2 (amended): one edit preserves the disjointness invariant whenever it
is safe: every deletion preserves it unconditionally, while a save must
target an identity not currently deleted and an add must introduce an
identity not currently modified or deleted. -/
theorem pending_disjoint_step (pc : Pending) (op : EditOp)
    (hd : pendingDisjoint pc = true) (hs : opSafe pc op = true) :
    pendingDisjoint (applyOp pc op) = true := by
  rw [pendingDisjoint_prop] at hd ⊢
  cases op with
  | save pid data =>
    simp only [opSafe, Bool.not_eq_true'] at hs
    simp only [applyOp, savePending]
    by_cases hb : mapHas pid pc.added = true
    · rw [if_pos hb]
      intro j
      constructor
      · intro hm
        have h1 := (hd j).1 hm
        refine ⟨?_, h1.2⟩
        rw [Bool.eq_false_iff]
        intro hja
        rw [mapHas_mapSet] at hja
        rcases hja with rfl | hja
        · rw [h1.1] at hb
          exact absurd hb (by simp)
        · rw [h1.1] at hja
          exact absurd hja (by simp)
      · intro hja
        rw [mapHas_mapSet] at hja
        rcases hja with rfl | hja
        · exact hs
        · exact (hd j).2 hja
    · rw [if_neg hb]
      intro j
      constructor
      · intro hm
        rw [mapHas_mapSet] at hm
        rcases hm with rfl | hm
        · exact ⟨Bool.eq_false_iff.mpr hb, hs⟩
        · exact (hd j).1 hm
      · intro hja
        exact (hd j).2 hja
  | add node =>
    simp only [opSafe, Bool.and_eq_true, Bool.not_eq_true'] at hs
    simp only [applyOp, addPending]
    intro j
    constructor
    · intro hm
      have h1 := (hd j).1 hm
      refine ⟨?_, h1.2⟩
      rw [Bool.eq_false_iff]
      intro hja
      rw [mapHas_mapSet] at hja
      rcases hja with rfl | hja
      · rw [hs.1] at hm
        exact absurd hm (by simp)
      · rw [h1.1] at hja
        exact absurd hja (by simp)
    · intro hja
      rw [mapHas_mapSet] at hja
      rcases hja with rfl | hja
      · exact hs.2
      · exact (hd j).2 hja
  | del n =>
    simp only [applyOp]
    intro j
    constructor
    · intro hm
      have hmono := (mark_mono n pc j).2 hm
      have hnotsub : j ∉ subtreeIds n := by
        intro hj
        have hc := (mark_cleared n pc j hj).2
        rw [hc] at hm
        exact absurd hm (by simp)
      have h1 := (hd j).1 hmono
      constructor
      · rw [Bool.eq_false_iff]
        intro hja
        have h2 := (mark_mono n pc j).1 hja
        rw [h1.1] at h2
        exact absurd h2 (by simp)
      · rw [Bool.eq_false_iff]
        intro hjd
        rw [setHas_iff, mark_deleted_mem] at hjd
        rcases hjd with hjd | hjd
        · have h3 := (setHas_iff j pc.deleted).mpr hjd
          rw [h1.2] at h3
          exact absurd h3 (by simp)
        · exact hnotsub hjd
    · intro hja
      have hmono := (mark_mono n pc j).1 hja
      have hnotsub : j ∉ subtreeIds n := by
        intro hj
        have hc := (mark_cleared n pc j hj).1
        rw [hc] at hja
        exact absurd hja (by simp)
      have h2 := (hd j).2 hmono
      rw [Bool.eq_false_iff]
      intro hjd
      rw [setHas_iff, mark_deleted_mem] at hjd
      rcases hjd with hjd | hjd
      · have h3 := (setHas_iff j pc.deleted).mpr hjd
        rw [h2] at h3
        exact absurd h3 (by simp)
      · exact hnotsub hjd

/-- C2 counterexample: the state reached from the empty change set by
deleting the L3 node "X" and then saving an edit to the same identity (the
edit form stays available for deleted nodes) has `"L3_X"` in both the
`modified` map and the `deleted` set, violating the claimed invariant. -/
theorem pending_disjoint_counterexample :
    pendingDisjoint (runOps [EditOp.del soloL3, EditOp.save "L3_X" soloL3]) =
        false ∧
    mapHas "L3_X" (runOps [EditOp.del soloL3,
        EditOp.save "L3_X" soloL3]).modified = true ∧
    setHas "L3_X" (runOps [EditOp.del soloL3,
        EditOp.save "L3_X" soloL3]).deleted = true := by
  decide

/-- Witness for `pending_disjoint_step` at a concrete change set and a
concrete safe operation. -/
theorem pending_disjoint_step_witness :
    (pendingDisjoint (runOps [EditOp.del soloL3]) = true ∧
      opSafe (runOps [EditOp.del soloL3]) (EditOp.save "L3_Y" soloL3) = true) ∧
    pendingDisjoint
      (applyOp (runOps [EditOp.del soloL3]) (EditOp.save "L3_Y" soloL3)) = true :=
  ⟨⟨by decide, by decide⟩,
    pending_disjoint_step (runOps [EditOp.del soloL3])
      (EditOp.save "L3_Y" soloL3) (by decide) (by decide)⟩

end AMI

namespace AMI

/-- Running one more edit folds from the right. -/
theorem runEdits_concat (es : List HEntry) (e : HEntry) :
    runEdits (es ++ [e]) = addToHistory (runEdits es) e := by
  simp [runEdits, List.foldl_append]

/-- One edit applied to a state whose cursor is at the tail of the log:
no truncation happens; the entry is pushed and, on overflow, the oldest
entry is shifted off. -/
theorem addToHistory_canon (D : List HEntry) (e : HEntry) :
    addToHistory ⟨D, (D.length : Int) - 1⟩ e =
      if D.length + 1 > MAX_HISTORY then ⟨(D ++ [e]).tail, (D.length : Int) - 1⟩
      else ⟨D ++ [e], ((D.length : Int) + 1) - 1⟩ := by
  have hcond : ¬((D.length : Int) - 1 < (D.length : Int) - 1) := lt_irrefl _
  simp only [addToHistory, if_neg hcond]
  by_cases hover : D.length + 1 > MAX_HISTORY
  · rw [if_pos (by simpa using hover), if_pos hover]
  · rw [if_neg (by simpa using hover), if_neg hover]
    congr 1
    simp only [List.length_append, List.length_singleton]
    push_cast
    ring

/-- Closed form of a sequence of committed edits from an empty history: the
log holds the most recent `min n MAX_HISTORY` entries in order, and the
cursor sits at the tail. -/
theorem runEdits_eq (es : List HEntry) :
    runEdits es = ⟨es.drop (es.length - MAX_HISTORY),
      ((min es.length MAX_HISTORY : Nat) : Int) - 1⟩ := by
  induction es using List.reverseRecOn with
  | nil => rfl
  | append_singleton es e ih =>
    rw [runEdits_concat, ih]
    have hlen : (es.drop (es.length - MAX_HISTORY)).length =
        min es.length MAX_HISTORY := by
      rw [List.length_drop]
      omega
    rw [show ((min es.length MAX_HISTORY : Nat) : Int) - 1 =
      (((es.drop (es.length - MAX_HISTORY)).length : Nat) : Int) - 1 by rw [hlen]]
    rw [addToHistory_canon]
    by_cases hle : es.length < MAX_HISTORY
    · rw [if_neg (by rw [hlen]; omega)]
      have h0 : es.length - MAX_HISTORY = 0 := by omega
      rw [h0, List.drop_zero]
      have h1 : (es ++ [e]).length - MAX_HISTORY = 0 := by
        simp only [List.length_append, List.length_singleton]
        omega
      rw [h1, List.drop_zero]
      congr 1
      have h2 : min (es ++ [e]).length MAX_HISTORY = es.length + 1 := by
        simp only [List.length_append, List.length_singleton]
        omega
      rw [h2]
      push_cast
      ring
    · rw [if_pos (by rw [hlen]; omega)]
      have hne : es.drop (es.length - MAX_HISTORY) ≠ [] := by
        intro h
        rw [← List.length_eq_zero, hlen] at h
        unfold MAX_HISTORY at h hle
        omega
      have htail : (es.drop (es.length - MAX_HISTORY) ++ [e]).tail =
          (es.drop (es.length - MAX_HISTORY)).tail ++ [e] := by
        cases hD : es.drop (es.length - MAX_HISTORY) with
        | nil => exact absurd hD hne
        | cons d ds => simp
      rw [htail, List.tail_drop]
      have h4 : (es ++ [e]).length - MAX_HISTORY =
          (es.length - MAX_HISTORY) + 1 := by
        simp only [List.length_append, List.length_singleton]
        omega
      have h5 : (es.length - MAX_HISTORY) + 1 ≤ es.length := by
        unfold MAX_HISTORY at hle ⊢
        omega
      rw [h4, List.drop_append_of_le_length h5]
      congr 1
      rw [hlen]
      have h6 : min es.length MAX_HISTORY = MAX_HISTORY := by omega
      have h7 : min (es ++ [e]).length MAX_HISTORY = MAX_HISTORY := by
        simp only [List.length_append, List.length_singleton]
        omega
      rw [h6, h7]

/-- C3: starting from an empty history log, after `MAX_HISTORY + 5`
sequential committed edits the log never exceeded `MAX_HISTORY` entries at
any intermediate point, every intermediate log is the suffix of most recent
entries (so overflow always evicts the oldest entry first, in FIFO order),
and the final log is exactly the input sequence minus its 5 oldest
entries. -/
theorem history_bound (es : List HEntry) (hn : es.length = MAX_HISTORY + 5) :
    (runEdits es).changeHistory = es.drop 5 ∧
    (∀ k : Nat, ((runEdits (es.take k)).changeHistory).length ≤ MAX_HISTORY) ∧
    (∀ k : Nat, (runEdits (es.take k)).changeHistory =
      (es.take k).drop ((es.take k).length - MAX_HISTORY)) := by
  refine ⟨?_, ?_, ?_⟩
  · rw [runEdits_eq, hn]
    exact rfl
  · intro k
    rw [runEdits_eq]
    show (List.drop _ _).length ≤ MAX_HISTORY
    rw [List.length_drop]
    omega
  · intro k
    rw [runEdits_eq]

end AMI

namespace AMI

/-- Witness for `history_bound` at a concrete 55-entry edit sequence. -/
theorem history_bound_witness :
    sampleEdits.length = MAX_HISTORY + 5 ∧
    ((runEdits sampleEdits).changeHistory = sampleEdits.drop 5 ∧
      (∀ k : Nat,
        ((runEdits (sampleEdits.take k)).changeHistory).length ≤ MAX_HISTORY) ∧
      (∀ k : Nat, (runEdits (sampleEdits.take k)).changeHistory =
        (sampleEdits.take k).drop ((sampleEdits.take k).length - MAX_HISTORY))) :=
  ⟨by simp [sampleEdits], history_bound sampleEdits (by simp [sampleEdits])⟩

end AMI

namespace AMI

/-- Value of `addProcess` when validation reaches the parent-level checks. -/
theorem addProcess_eq_of_found (st : AppState) (now : Nat)
    (name level parentName description useCase itRelease : String) (p : PNode)
    (h1 : ¬(name = "" ∨ level = "")) (h2 : parentName ≠ "")
    (hp : findProcessByName st.hierarchyData parentName = some p) :
    addProcess st now name level parentName description useCase itRelease =
      if level = "L1" ∧ p.level ≠ "L1" then
        (⟨false, "L1 processes cannot have a parent.", ""⟩, st)
      else if level = "L2" ∧ p.level ≠ "L1" then
        (⟨false, "L2 processes must have an L1 parent.", ""⟩, st)
      else if level = "L3" ∧ p.level ≠ "L2" then
        (⟨false, "L3 processes must have an L2 parent.", ""⟩, st)
      else addProcessCommit st now name level parentName description useCase
        itRelease := by
  unfold addProcess
  rw [if_neg h1, if_pos h2, hp]

/-- Value of `addProcess` when the named parent is absent from the tree. -/
theorem addProcess_eq_of_not_found (st : AppState) (now : Nat)
    (name level parentName description useCase itRelease : String)
    (h1 : ¬(name = "" ∨ level = "")) (h2 : parentName ≠ "")
    (hp : findProcessByName st.hierarchyData parentName = none) :
    addProcess st now name level parentName description useCase itRelease =
      (⟨false, "Parent process not found.", ""⟩, st) := by
  unfold addProcess
  rw [if_neg h1, if_pos h2, hp]

/-- C8: every `addProcess` call with a missing name or level, a missing
required parent (empty for a non-L1 level, or named but absent from the
tree), or a parent whose level is wrong for the requested child level,
returns a structured `{success: false, error}` value and leaves the working
tree, the pending change set and the history log untouched. -/
theorem addProcess_validation_failure (st : AppState) (now : Nat)
    (name level parentName description useCase itRelease : String)
    (hfail : name = "" ∨ level = "" ∨
      (parentName = "" ∧ level ≠ "L1") ∨
      (parentName ≠ "" ∧ findProcessByName st.hierarchyData parentName = none) ∨
      (parentName ≠ "" ∧ ∃ p,
        findProcessByName st.hierarchyData parentName = some p ∧
        wrongParentLevel level p.level = true)) :
    (addProcess st now name level parentName description useCase itRelease).1.success
        = false ∧
    (addProcess st now name level parentName description useCase itRelease).1.error
        ≠ "" ∧
    (addProcess st now name level parentName description useCase itRelease).2 = st := by
  by_cases h1 : name = "" ∨ level = ""
  · unfold addProcess
    rw [if_pos h1]
    exact ⟨rfl, by show ("Process name and level are required." : String) ≠ ""; decide,
      rfl⟩
  · by_cases h2 : parentName = ""
    · unfold addProcess
      rw [if_neg h1, if_neg (fun hc => hc h2)]
      have hlev : level ≠ "L1" := by
        rcases hfail with h | h | h | h | h
        · exact absurd (Or.inl h) h1
        · exact absurd (Or.inr h) h1
        · exact h.2
        · exact absurd h2 h.1
        · exact absurd h2 h.1
      rw [if_pos hlev]
      exact ⟨rfl, by show ("Parent process is required." : String) ≠ ""; decide, rfl⟩
    · have hrest : findProcessByName st.hierarchyData parentName = none ∨
          ∃ p, findProcessByName st.hierarchyData parentName = some p ∧
            wrongParentLevel level p.level = true := by
        rcases hfail with h | h | h | h | h
        · exact absurd (Or.inl h) h1
        · exact absurd (Or.inr h) h1
        · exact absurd h.1 h2
        · exact Or.inl h.2
        · exact Or.inr h.2
      rcases hrest with hnone | ⟨p, hp, hw⟩
      · rw [addProcess_eq_of_not_found st now name level parentName description
          useCase itRelease h1 h2 hnone]
        exact ⟨rfl, by show ("Parent process not found." : String) ≠ ""; decide, rfl⟩
      · rw [addProcess_eq_of_found st now name level parentName description
          useCase itRelease p h1 h2 hp]
        simp only [wrongParentLevel, Bool.or_eq_true, Bool.and_eq_true,
          decide_eq_true_eq] at hw
        rcases hw with (hw | hw) | hw
        · rw [if_pos hw]
          exact ⟨rfl,
            by show ("L1 processes cannot have a parent." : String) ≠ ""; decide, rfl⟩
        · have hnA : ¬(level = "L1" ∧ p.level ≠ "L1") :=
            fun hc => absurd hw.1 (by rw [hc.1]; decide)
          rw [if_neg hnA, if_pos hw]
          exact ⟨rfl,
            by show ("L2 processes must have an L1 parent." : String) ≠ ""; decide,
            rfl⟩
        · have hnA : ¬(level = "L1" ∧ p.level ≠ "L1") :=
            fun hc => absurd hw.1 (by rw [hc.1]; decide)
          have hnB : ¬(level = "L2" ∧ p.level ≠ "L1") :=
            fun hc => absurd hw.1 (by rw [hc.1]; decide)
          rw [if_neg hnA, if_neg hnB, if_pos hw]
          exact ⟨rfl,
            by show ("L3 processes must have an L2 parent." : String) ≠ ""; decide,
            rfl⟩

/-- Witness for `addProcess_validation_failure`: adding an L3 process with
an empty name to a concrete state fails and leaves the state unchanged. -/
theorem addProcess_validation_failure_witness :
    (("" : String) = "" ∨ ("L3" : String) = "" ∨
      (("Meter Reading" : String) = "" ∧ ("L3" : String) ≠ "L1") ∨
      (("Meter Reading" : String) ≠ "" ∧
        findProcessByName freshState.hierarchyData "Meter Reading" = none) ∨
      (("Meter Reading" : String) ≠ "" ∧ ∃ p,
        findProcessByName freshState.hierarchyData "Meter Reading" = some p ∧
        wrongParentLevel "L3" p.level = true)) ∧
    ((addProcess freshState 0 "" "L3" "Meter Reading" "" "" "").1.success = false ∧
      (addProcess freshState 0 "" "L3" "Meter Reading" "" "" "").1.error ≠ "" ∧
      (addProcess freshState 0 "" "L3" "Meter Reading" "" "" "").2 = freshState) :=
  ⟨Or.inl rfl,
    addProcess_validation_failure freshState 0 "" "L3" "Meter Reading" "" "" ""
      (Or.inl rfl)⟩

end AMI

namespace AMI

mutual

/-- Every node collected by the spec-side traversal is an L3 node. -/
theorem l3TriplesNode_level : ∀ (l1 l2 : String) (n : PNode)
    (t : String × String × PNode), t ∈ l3TriplesNode l1 l2 n → t.2.2.level = "L3"
  | l1, l2, .mk n l o u r cs, t => by
    intro ht
    simp only [l3TriplesNode] at ht
    by_cases h1 : l = "L1"
    · rw [if_pos h1] at ht
      exact l3TriplesList_level n l2 cs t ht
    · rw [if_neg h1] at ht
      by_cases h2 : l = "L2"
      · rw [if_pos h2] at ht
        exact l3TriplesList_level l1 n cs t ht
      · rw [if_neg h2] at ht
        by_cases h3 : l = "L3"
        · rw [if_pos h3] at ht
          simp only [List.mem_singleton] at ht
          subst ht
          exact h3
        · rw [if_neg h3] at ht
          exact absurd ht (by simp)

/-- List version of `l3TriplesNode_level`. -/
theorem l3TriplesList_level : ∀ (l1 l2 : String) (cs : List PNode)
    (t : String × String × PNode), t ∈ l3TriplesList l1 l2 cs → t.2.2.level = "L3"
  | l1, l2, [], t => by
    intro ht
    simp [l3TriplesList] at ht
  | l1, l2, c :: cs, t => by
    intro ht
    simp only [l3TriplesList, List.mem_append] at ht
    rcases ht with ht | ht
    · exact l3TriplesNode_level l1 l2 c t ht
    · exact l3TriplesList_level l1 l2 cs t ht

end

mutual

/-- The export traversal is the spec-side traversal filtered by the deleted
set and mapped to rows. -/
theorem flattenNode_eq : ∀ (deleted : List String) (l1 l2 : String) (n : PNode),
    flattenNode deleted l1 l2 n =
      ((l3TriplesNode l1 l2 n).filter
          (fun t => !(setHas (getProcessId t.2.2) deleted))).map
        (fun t => (⟨t.1, t.2.1, t.2.2.name, t.2.2.objective, t.2.2.useCase,
          t.2.2.itRelease⟩ : ExportRow))
  | deleted, l1, l2, .mk n l o u r cs => by
    simp only [flattenNode, l3TriplesNode]
    by_cases h1 : l = "L1"
    · rw [if_pos h1, if_pos h1]
      exact flattenList_eq deleted n l2 cs
    · rw [if_neg h1, if_neg h1]
      by_cases h2 : l = "L2"
      · rw [if_pos h2, if_pos h2]
        exact flattenList_eq deleted l1 n cs
      · rw [if_neg h2, if_neg h2]
        by_cases h3 : l = "L3"
        · rw [if_pos h3, if_pos h3]
          simp only [List.filter_cons, List.filter_nil, getProcessId,
            PNode.level, PNode.name, PNode.objective, PNode.useCase,
            PNode.itRelease]
          by_cases hd : setHas (l ++ "_" ++ n) deleted
          · rw [if_pos hd]
            simp [hd]
          · rw [if_neg hd]
            simp only [Bool.eq_false_iff.mpr hd, Bool.not_false, if_pos]
            simp
        · rw [if_neg h3, if_neg h3]
          rfl

/-- List version of `flattenNode_eq`. -/
theorem flattenList_eq : ∀ (deleted : List String) (l1 l2 : String)
    (cs : List PNode),
    flattenList deleted l1 l2 cs =
      ((l3TriplesList l1 l2 cs).filter
          (fun t => !(setHas (getProcessId t.2.2) deleted))).map
        (fun t => (⟨t.1, t.2.1, t.2.2.name, t.2.2.objective, t.2.2.useCase,
          t.2.2.itRelease⟩ : ExportRow))
  | deleted, l1, l2, [] => rfl
  | deleted, l1, l2, c :: cs => by
    simp only [flattenList, l3TriplesList, List.filter_append, List.map_append]
    rw [flattenNode_eq deleted l1 l2 c, flattenList_eq deleted l1 l2 cs]

end

/-- C9: `exportToExcel` emits exactly the rows of the non-deleted L3 nodes
(one six-column row per L3 occurrence whose identity is outside the deleted
set, with its enclosing L1/L2 names), omits every L3 node whose identity is
deleted, and resets the pending change set and the history log
(`historyIndex = -1`) while leaving the working tree unchanged. -/
theorem export_commit (st : AppState) :
    (exportToExcel st).1 = exportRowsSpec st.hierarchyData st.pendingChanges.deleted ∧
    (∀ row ∈ (exportToExcel st).1,
      setHas ("L3_" ++ row.l3Name) st.pendingChanges.deleted = false) ∧
    (exportToExcel st).2.hierarchyData = st.hierarchyData ∧
    (exportToExcel st).2.pendingChanges = emptyPending ∧
    (exportToExcel st).2.history = HistState.mk [] (-1) := by
  have hrows : (exportToExcel st).1 =
      exportRowsSpec st.hierarchyData st.pendingChanges.deleted := by
    show flattenList st.pendingChanges.deleted "" "" st.hierarchyData.children = _
    rw [flattenList_eq]
    rfl
  refine ⟨hrows, ?_, rfl, rfl, rfl⟩
  intro row hrow
  rw [hrows] at hrow
  unfold exportRowsSpec at hrow
  rw [List.mem_map] at hrow
  obtain ⟨t, ht, hteq⟩ := hrow
  rw [List.mem_filter] at ht
  have hlev : t.2.2.level = "L3" :=
    l3TriplesList_level "" "" st.hierarchyData.children t ht.1
  have hid : getProcessId t.2.2 = "L3_" ++ row.l3Name := by
    rw [getProcessId, hlev, ← hteq]
    rfl
  rw [← hid]
  have := ht.2
  simp only [Bool.not_eq_true'] at this
  exact this

end AMI

namespace AMI

/-- C4 (amended, JS adapter): whenever the JS adapter resolves the original
input edge — through the preserved `_original` reference or the
bidirectional endpoint search — the positioned edge carries the original
`source` and `target`, regardless of the direction the layout library
returned (in particular when it reversed the edge for cycle breaking). -/
theorem layout_direction_preserved_js (flowEdges : List FlowEdge)
    (oe : ElkEdgeOut) (e : FlowEdge)
    (h : resolveOriginalEdge flowEdges oe = some e) :
    (positionedEdgeJS flowEdges oe).source = e.source ∧
    (positionedEdgeJS flowEdges oe).target = e.target := by
  unfold positionedEdgeJS
  rw [h]
  exact ⟨rfl, rfl⟩

/-- Witness for `layout_direction_preserved_js`: a concrete edge whose ELK
output direction is reversed still comes back as `A -> B`. -/
theorem layout_direction_preserved_js_witness :
    resolveOriginalEdge [edgeAB] elkReversedAB = some edgeAB ∧
    ((positionedEdgeJS [edgeAB] elkReversedAB).source = edgeAB.source ∧
      (positionedEdgeJS [edgeAB] elkReversedAB).target = edgeAB.target) :=
  ⟨rfl, layout_direction_preserved_js [edgeAB] elkReversedAB edgeAB rfl⟩

/-- C4 counterexample (TS adapter): on the same reversed ELK output, the TS
adapter copies ELK's direction into the positioned edge, so the returned
edge is `B -> A` instead of the input direction `A -> B`. -/
theorem layout_direction_ts_counterexample :
    edgeAB.source = "A" ∧ edgeAB.target = "B" ∧
    (positionedEdgeTS [edgeAB] elkReversedAB).source = "B" ∧
    (positionedEdgeTS [edgeAB] elkReversedAB).target = "A" ∧
    ¬((positionedEdgeTS [edgeAB] elkReversedAB).source = edgeAB.source) := by
  decide

/-- C10 (amended): the TS pipeline supplies to the layout algorithm exactly
the box computed by the claimed formula — `width = max(minWidth,
labelLength * charWidth + padding)`, `height = max(minHeight, lineHeight +
padding)` — while the JS pipeline supplies the fixed box `150 × 60`
regardless of the label. -/
theorem node_dimensions_formula (n : FlowNode) :
    elkInputDimsTS n =
      (max 120 ((labelOf n).length * 8 + 20), max 50 (20 + 20)) ∧
    elkInputDimsJS n = (150, 60) := by
  constructor
  · have hw : max 120 ((labelOf n).length * 8 + 20) ≠ 0 := by
      have := Nat.le_max_left 120 ((labelOf n).length * 8 + 20)
      omega
    simp only [elkInputDimsTS, elkNodeDimsTS, withCalculatedDims,
      calculateNodeDimensions]
    rw [if_neg hw, if_neg (by decide : ¬(50 ⊔ (20 + 20) = 0))]
  · rfl

/-- C10 counterexample: for a 20-character label the formula gives width
`180`, but the JS `convertToELKGraph` hands ELK the fixed width `150`. -/
theorem node_dimensions_counterexample :
    (labelOf wideNode).length = 20 ∧
    calculateNodeDimensions wideNode = (180, 50) ∧
    elkInputDimsJS wideNode = (150, 60) ∧
    ¬((elkInputDimsJS wideNode).1 =
        max 120 ((labelOf wideNode).length * 8 + 20)) := by
  decide

/-- The TS create-or-update step always leaves the named node present. -/
theorem mapHas_createOrUpdateNodeTS (nm cat : String)
    (m : List (String × FlowNode)) (h : nm ≠ "") :
    mapHas nm (createOrUpdateNodeTS nm cat m) = true := by
  unfold createOrUpdateNodeTS
  rw [if_neg h]
  by_cases hm : mapHas nm m = true
  · rw [if_pos hm]
    rw [mapHas_iff] at hm ⊢
    obtain ⟨p, hp, hpk⟩ := hm
    refine ⟨_, List.mem_map_of_mem _ hp, ?_⟩
    by_cases hc : p.1 = nm ∧ cat ≠ "" ∧ (p.2.group = "" ∨ p.2.group = "default")
    · rw [if_pos hc]
      exact hpk
    · rw [if_neg hc]
      exact hpk
  · rw [if_neg hm]
    rw [mapHas_iff]
    exact ⟨(nm, baseFlowNode nm cat),
      List.mem_append_right _ (List.mem_singleton_self _), rfl⟩

/-- C6 (amended): in the TS parser a row with both (trimmed) cells empty is
skipped silently, and a row with exactly one side present yields an
isolated node for that side and no edge (lenient mode); the JS parser is
strict instead — it skips every row in which either side is empty, touching
neither the node map nor the edge list. -/
theorem parser_row_tolerance (m : List (String × FlowNode)) (es : List FlowEdge)
    (row : RawRow) :
    (trimChars row.source = "" → trimChars row.target = "" →
      parseRowTS (m, es) row = (m, es) ∧
      ∀ l3m, parseRowJS l3m (m, es) row = (m, es)) ∧
    (trimChars row.source ≠ "" → trimChars row.target = "" →
      (parseRowTS (m, es) row).2 = es ∧
      mapHas (trimChars row.source) (parseRowTS (m, es) row).1 = true ∧
      ∀ l3m, parseRowJS l3m (m, es) row = (m, es)) ∧
    (trimChars row.source = "" → trimChars row.target ≠ "" →
      (parseRowTS (m, es) row).2 = es ∧
      mapHas (trimChars row.target) (parseRowTS (m, es) row).1 = true ∧
      ∀ l3m, parseRowJS l3m (m, es) row = (m, es)) := by
  refine ⟨?_, ?_, ?_⟩
  · intro hs ht
    constructor
    · unfold parseRowTS
      rw [if_pos ⟨hs, ht⟩]
    · intro l3m
      unfold parseRowJS
      rw [if_pos (Or.inl hs)]
  · intro hs ht
    have hts : parseRowTS (m, es) row =
        (createOrUpdateNodeTS (trimChars row.source) (trimChars row.categoryCell) m,
          es) := by
      unfold parseRowTS
      rw [if_neg (fun hc => hs hc.1), if_pos ⟨hs, ht⟩]
    refine ⟨by rw [hts], ?_, ?_⟩
    · rw [hts]
      exact mapHas_createOrUpdateNodeTS _ _ m hs
    · intro l3m
      unfold parseRowJS
      rw [if_pos (Or.inr ht)]
  · intro hs ht
    have hts : parseRowTS (m, es) row =
        (createOrUpdateNodeTS (trimChars row.target) (trimChars row.categoryCell) m,
          es) := by
      unfold parseRowTS
      rw [if_neg (fun hc => ht hc.2), if_neg (fun hc => ht hc.2),
        if_pos ⟨hs, ht⟩]
    refine ⟨by rw [hts], ?_, ?_⟩
    · rw [hts]
      exact mapHas_createOrUpdateNodeTS _ _ m ht
    · intro l3m
      unfold parseRowJS
      rw [if_pos (Or.inl hs)]

/-- Witness for `parser_row_tolerance`: the source-only row `("A", "")`. -/
theorem parser_row_tolerance_witness :
    (trimChars soloSourceRow.source ≠ "" ∧ trimChars soloSourceRow.target = "") ∧
    ((parseRowTS ([], []) soloSourceRow).2 = [] ∧
      mapHas (trimChars soloSourceRow.source)
        (parseRowTS ([], []) soloSourceRow).1 = true ∧
      ∀ l3m, parseRowJS l3m ([], []) soloSourceRow = ([], [])) :=
  ⟨⟨by decide, by decide⟩,
    (parser_row_tolerance [] [] soloSourceRow).2.1 (by decide) (by decide)⟩

/-- C6 counterexample (JS parser): the source-only row produces no isolated
node in the JS parser — the whole row is skipped — while the TS parser
produces the isolated node "A". -/
theorem parser_lenient_counterexample :
    trimChars soloSourceRow.source = "A" ∧
    parseRowsJS none [soloSourceRow] = ([], []) ∧
    mapHas "A" (parseRowsJS none [soloSourceRow]).1 = false ∧
    mapHas "A" (parseRowsTS [soloSourceRow]).1 = true := by
  decide

end AMI
